import Mathlib

/-!
Verification of the configuration backward-compatibility migration engine of
`ludwig/utils/backward_compatibility.py` (function `upgrade_deprecated_fields`
and its helpers), against the repository specification.

Configuration documents are JSON-like trees: string-keyed insertion-ordered
mappings, ordered sequences, and scalar leaves (null / bool / int / float /
string).  Python dictionaries are embedded as ordered association lists;
`setKey` updates a present key in place and appends an absent one at the end,
exactly as a Python dict does, and `eraseAll` removes a key, as `del` /
`pop` do (Python dictionaries never hold a key twice, so removing every
occurrence agrees with removing the unique one).

Python code that would raise on a malformed document (indexing a non-mapping,
`KeyError`, iterating `None`) is embedded as an `Option`-returning function
that yields `none` there.
-/

set_option autoImplicit false

namespace LudwigCompat

/-- A JSON-like configuration value.  Python floats are modelled as rationals:
the migration engine never computes with them, it only moves them around,
tests truthiness and compares with `0`. -/
inductive Value where
  | null : Value
  | bool (b : Bool) : Value
  | int (n : Int) : Value
  | float (q : ℚ) : Value
  | str (s : String) : Value
  | list (xs : List Value) : Value
  | obj (fields : List (String × Value)) : Value

/-- The fields of a mapping node: an insertion-ordered association list. -/
abbrev Fields := List (String × Value)

/-- First value stored under key `k` (Python `d[k]` / `d.get(k)`). -/
def lookupKey : Fields → String → Option Value
  | [], _ => none
  | (k', v) :: rest, k => if k' = k then some v else lookupKey rest k

/-- Python `k in d`. -/
def containsKey (m : Fields) (k : String) : Bool :=
  (lookupKey m k).isSome

/-- Python `d[k] = v`: replace the value of a present key in place, keeping
its position, or append a new entry at the end. -/
def setKey : Fields → String → Value → Fields
  | [], k, v => [(k, v)]
  | (k', v') :: rest, k, v =>
    if k' = k then (k, v) :: rest else (k', v') :: setKey rest k v

/-- Python `del d[k]` / `d.pop(k)`: remove the key.  (On association lists we
remove every occurrence; a list that embeds a Python dict holds each key at
most once.) -/
def eraseAll (m : Fields) (k : String) : Fields :=
  m.filter (fun p => p.1 ≠ k)

/-- The keys of a mapping, in order (Python `list(d)`). -/
def keysOf (m : Fields) : List String := m.map Prod.fst

/-- Python truthiness of a value (`if v:`). -/
def pyTruthy : Value → Bool
  | .null => false
  | .bool b => b
  | .int n => n ≠ 0
  | .float q => q ≠ 0
  | .str s => s ≠ ""
  | .list xs => !xs.isEmpty
  | .obj m => !m.isEmpty

/-- Python `v == 0`: true exactly for the integer `0`, the float `0.0` and
`False` (booleans are numbers in Python); every other value, `None` and
strings included, compares unequal to `0`. -/
def isPyZero : Value → Bool
  | .int n => n = 0
  | .bool b => !b
  | .float q => q = 0
  | _ => false

/-- View a value as a mapping; `none` where Python would raise on a
non-mapping. -/
def asObj : Value → Option Fields
  | .obj m => some m
  | _ => none

/-- View a value as a sequence; `none` where Python would raise on a
non-sequence. -/
def asList : Value → Option (List Value)
  | .list xs => some xs
  | _ => none

/-! ## The migration engine

Each Lean definition embeds the Python function of the same name from
`ludwig/utils/backward_compatibility.py`.  String constants from
`ludwig.constants` are inlined with their values (`TYPE = "type"`,
`RAY = "ray"`, `NUMBER = "number"`, and so on), as the specification and the
code use them. -/

mutual
/-- `_traverse_dicts(config, f)`: applies `f` to every mapping contained in
`config`; `f` is applied to leaves first, root last (post-order). -/
def _traverse_dicts (f : Fields → Fields) : Value → Value
  | .obj kvs => .obj (f (traverseFields f kvs))
  | .list xs => .list (traverseValues f xs)
  | .null => .null
  | .bool b => .bool b
  | .int n => .int n
  | .float q => .float q
  | .str s => .str s

/-- The walk of `_traverse_dicts` over the elements of a sequence. -/
def traverseValues (f : Fields → Fields) : List Value → List Value
  | [] => []
  | v :: vs => _traverse_dicts f v :: traverseValues f vs

/-- The walk of `_traverse_dicts` over the values of a mapping. -/
def traverseFields (f : Fields → Fields) : Fields → Fields
  | [] => []
  | (k, v) :: rest => (k, _traverse_dicts f v) :: traverseFields f rest
end

/-- `config[new_key] = config[old_key]; del config[old_key]`, guarded by
`old_key in config` — one rename of `_upgrade_use_bias`. -/
def renameField (m : Fields) (oldKey newKey : String) : Fields :=
  match lookupKey m oldKey with
  | some v => eraseAll (setKey m newKey v) oldKey
  | none => m

/-- `_upgrade_use_bias(config)`: renames `bias` to `use_bias`, `conv_bias` to
`conv_use_bias` and `default_bias` to `default_use_bias` in one mapping. -/
def _upgrade_use_bias (config : Fields) : Fields :=
  renameField (renameField (renameField config "bias" "use_bias")
    "conv_bias" "conv_use_bias") "default_bias" "default_use_bias"

/-- First half of `_upgrade_feature`: `if feature.get(TYPE) == "numerical":
feature[TYPE] = NUMBER` (in Python only the string `"numerical"` compares
equal to `"numerical"`). -/
def featureTypeStep (m : Fields) : Fields :=
  match lookupKey m "type" with
  | some (.str s) => if s = "numerical" then setKey m "type" (.str "number") else m
  | _ => m

/-- `_upgrade_feature(feature)`: rewrites a legacy `"numerical"` type tag to
`"number"`, then runs `_traverse_dicts` with `_upgrade_use_bias` over the
whole record.  `none` where Python raises on a non-mapping feature. -/
def _upgrade_feature (feature : Value) : Option Value := do
  let m ← asObj feature
  pure (_traverse_dicts _upgrade_use_bias (.obj (featureTypeStep m)))

/-- Python `s.startswith(t)`, on the character sequences of the strings. -/
def strStartsWith (s t : String) : Bool :=
  t.data.isPrefixOf s.data

/-- Python `s[n:]`: drop the first `n` characters. -/
def strDropChars (s : String) (n : Nat) : String :=
  ⟨s.data.drop n⟩

/-- Step 1 body of `_upgrade_hyperopt`: rename one `training.`-prefixed key of
the `parameters` mapping (`hparams["trainer." + k[len(substr):]] = v;
del hparams[k]`), iterating over a snapshot of the items. -/
def renameTrainingParam (acc : Fields) (kv : String × Value) : Fields :=
  if strStartsWith kv.1 "training." then
    eraseAll (setKey acc ("trainer." ++ strDropChars kv.1 "training.".length) kv.2) kv.1
  else acc

/-- `executor_type is not None and executor_type != RAY` of
`_upgrade_hyperopt` (in Python no non-string value compares equal to the
string `"ray"`). -/
def executorTypeNotRay : Value → Bool
  | .null => false
  | .str s => s != "ray"
  | _ => true

/-- First block of `_upgrade_hyperopt`: check for use of legacy `"training."`
references among the hyperopt `parameters` keys and rename them to
`"trainer."`, iterating a snapshot of the items. -/
def hyperoptParametersStep (h : Fields) : Option Fields :=
  match lookupKey h "parameters" with
  | some pv => do
      let pm ← asObj pv
      pure (setKey h "parameters" (.obj (pm.foldl renameTrainingParam pm)))
  | none => pure h

/-- Second block of `_upgrade_hyperopt`: when an `executor` mapping exists,
rewrite an unsupported executor `type` to `"ray"` and promote
`executor.search_alg` to the top level (only when no top-level `search_alg`
exists), deleting it from `executor` unconditionally; when `executor` is
absent, create it as `{type: "ray"}`. -/
def hyperoptExecutorStep (h : Fields) : Option Fields :=
  match lookupKey h "executor" with
  | some ev => do
      let e ← asObj ev
      let e := match lookupKey e "type" with
        | some t => if executorTypeNotRay t then setKey e "type" (.str "ray") else e
        | none => e
      let step : Fields × Fields := match lookupKey e "search_alg" with
        | some sv =>
            (if containsKey h "search_alg" then h else setKey h "search_alg" sv,
             eraseAll e "search_alg")
        | none => (h, e)
      pure (setKey step.1 "executor" (.obj step.2))
  | none => pure (setKey h "executor" (.obj [("type", Value.str "ray")]))

/-- Third block of `_upgrade_hyperopt`: fold a legacy `sampler` section into
the top level (`search_alg`) and `executor` (`num_samples`, `scheduler`),
never overwriting present targets, then delete `sampler` unconditionally. -/
def hyperoptSamplerStep (h : Fields) : Option Fields :=
  match lookupKey h "sampler" with
  | some sv => do
      let s ← asObj sv
      let h := match lookupKey s "search_alg" with
        | some sa => if containsKey h "search_alg" then h else setKey h "search_alg" sa
        | none => h
      let ev ← lookupKey h "executor"
      let e ← asObj ev
      let e := match lookupKey s "num_samples" with
        | some ns => if containsKey e "num_samples" then e else setKey e "num_samples" ns
        | none => e
      let e := match lookupKey s "scheduler" with
        | some sc => if containsKey e "scheduler" then e else setKey e "scheduler" sc
        | none => e
      pure (eraseAll (setKey h "executor" (.obj e)) "sampler")
  | none => pure h

/-- Final block of `_upgrade_hyperopt`: put in the default `search_alg` value
when it is still missing at the top level. -/
def hyperoptSearchAlgDefaultStep (h : Fields) : Fields :=
  if containsKey h "search_alg" then h
  else setKey h "search_alg" (.obj [("type", Value.str "variant_generator")])

/-- `_upgrade_hyperopt(hyperopt)`: the four blocks of the source, in order:
legacy `training.` parameter renames, executor normalization/creation,
sampler folding, default `search_alg` injection.  `none` where Python raises
on non-mapping sections. -/
def _upgrade_hyperopt (hyperopt : Value) : Option Value := do
  let h ← asObj hyperopt
  let h ← hyperoptParametersStep h
  let h ← hyperoptExecutorStep h
  let h ← hyperoptSamplerStep h
  pure (.obj (hyperoptSearchAlgDefaultStep h))

/-- `_upgrade_trainer(trainer)`: `trainer.get("eval_batch_size") == 0` makes
the value `None`; Python `== 0` also holds for `False` and `0.0`
(`isPyZero`), and for nothing else. -/
def _upgrade_trainer (trainer : Value) : Option Value := do
  let t ← asObj trainer
  match lookupKey t "eval_batch_size" with
  | some v =>
      if isPyZero v then pure (.obj (setKey t "eval_batch_size" .null)) else pure (.obj t)
  | none => pure (.obj t)

/-- `d.pop(k, None)`: the removed mapping plus the popped value, where a stored
`None` is indistinguishable from an absent key (both give Python `None`). -/
def popKey (m : Fields) (k : String) : Option Value × Fields :=
  (match lookupKey m k with
   | some .null => none
   | ov => ov,
   eraseAll m k)

/-- `_upgrade_preprocessing_split(preprocessing)`: pops the legacy
`force_split` / `split_probabilities` / `stratify` keys and consolidates them
into a structured `split` object, written only when non-empty. -/
def _upgrade_preprocessing_split (preprocessing : Value) : Option Value := do
  let p ← asObj preprocessing
  let (force_split, p) := popKey p "force_split"
  let (split_probabilities, p) := popKey p "split_probabilities"
  let (stratify, p) := popKey p "stratify"
  let split_params : Fields := []
  let split_params := match split_probabilities with
    | some v => setKey split_params "probabilities" v
    | none => split_params
  let split_params := match stratify with
    | some v => setKey (setKey split_params "type" (.str "stratify")) "column" v
    | none => split_params
  let split_params := match force_split with
    | some v =>
        if containsKey split_params "type" then split_params
        else setKey split_params "type" (if pyTruthy v then .str "random" else .str "fixed")
    | none => split_params
  pure (.obj (if split_params.isEmpty then p else setKey p "split" (.obj split_params)))

/-- Modelled from the spec: `ludwig.utils.misc_utils.merge_dict` is imported
by the migration engine but its source file is not part of this excerpt.
Following §4.6 and §9 of the specification, it deep-merges the second mapping
into the first — recursing where both sides hold mappings, the existing
(first) value winning on a leaf conflict — and raises when the second
argument is not a mapping. -/
def merge_dict : Fields → Fields → Fields
  | dct, [] => dct
  | dct, (k, v) :: rest =>
    match lookupKey dct k, v with
    | some (.obj a), .obj b => merge_dict (setKey dct k (.obj (merge_dict a b))) rest
    | some _, _ => merge_dict dct rest
    | none, _ => merge_dict (setKey dct k v) rest
termination_by _d m => sizeOf m
decreasing_by all_goals simp_wf <;> omega

/-- Python `dst.update(src)`: write every entry of `src` into `dst`, in
order. -/
def updateFields (dst src : Fields) : Fields :=
  src.foldl (fun acc kv => setKey acc kv.1 kv.2) dst

/-- Collection loop body of `_upgrade_preprocessing_defaults`: when the
parameter names a known feature type,
`type_specific_preprocessing_params[parameter] = config[PREPROCESSING].pop(parameter)`.
(`acc.1` is the collected overrides, `acc.2` the preprocessing section.) -/
def collectTypeSpecific (input_feature_types : List String)
    (acc : Fields × Fields) (parameter : String) : Fields × Fields :=
  if input_feature_types.contains parameter then
    match lookupKey acc.2 parameter with
    | some v => (setKey acc.1 parameter v, eraseAll acc.2 parameter)
    | none => acc
  else acc

/-- The new value of the `defaults` mapping after installing one popped
`(feature_type, preprocessing_param)` override, following the three branches
of the update loop of `_upgrade_preprocessing_defaults` exactly: create the
entry (wrapping it under a `preprocessing` sub-key when it lacks one), set a
missing `preprocessing` sub-key, or merge into the existing one.  `none`
where Python raises (`KeyError` for a missing `preprocessing` sub-key of the
override, non-mapping where a mapping is indexed). -/
def defaultsAfterInstall (dv : Value) (ftv : String × Value) : Option Value := do
  let feature_type := ftv.1
  let preprocessing_param := ftv.2
  let d ← asObj dv
  match lookupKey d feature_type with
  | none => do
      -- If defaults was empty, then create a new key with feature type
      let po ← asObj preprocessing_param
      let entry := if containsKey po "preprocessing" then preprocessing_param
                   else Value.obj [("preprocessing", preprocessing_param)]
      pure (Value.obj (setKey d feature_type entry))
  | some entryV => do
      let entry ← asObj entryV
      if containsKey entry "preprocessing" then do
        -- Update default feature specific preprocessing with parameters from config
        let curV ← lookupKey entry "preprocessing"
        let cur ← asObj curV
        let po ← asObj preprocessing_param
        let ovpV ← lookupKey po "preprocessing"
        let ovp ← asObj ovpV
        let merged := updateFields cur (merge_dict cur ovp)
        pure (Value.obj (setKey d feature_type
          (.obj (setKey entry "preprocessing" (.obj merged)))))
      else do
        -- Feature type exists but preprocessing hasn't been specified
        let po ← asObj preprocessing_param
        let ovpV ← lookupKey po "preprocessing"
        pure (Value.obj (setKey d feature_type
          (.obj (setKey entry "preprocessing" ovpV))))

/-- The update loop body of `_upgrade_preprocessing_defaults`: reads the
`defaults` value, installs the override into it, and writes it back. -/
def applyDefaultForType (c : Fields) (ftv : String × Value) : Option Fields := do
  let dv ← lookupKey c "defaults"
  let d2 ← defaultsAfterInstall dv ftv
  pure (setKey c "defaults" d2)

/-- `_upgrade_preprocessing_defaults(config)`: pops every preprocessing key
naming a known input feature type into a `defaults` entry, deletes the
preprocessing section when it becomes empty, and creates an empty `defaults`
mapping when absent.  The set of known feature-type names
(`set(base_type_registry)`, an external registry per §6 of the spec) is the
`input_feature_types` parameter.  `none` where Python raises — in particular
`list(config.get(PREPROCESSING))` raises when the document has no
preprocessing section. -/
def _upgrade_preprocessing_defaults (input_feature_types : List String)
    (config : Fields) : Option Fields := do
  let pv ← lookupKey config "preprocessing"
  let p ← asObj pv
  let preprocessing_parameters := keysOf p
  let tspP := preprocessing_parameters.foldl (collectTypeSpecific input_feature_types) ([], p)
  let type_specific_preprocessing_params := tspP.1
  let p := tspP.2
  -- Delete empty preprocessing section if no other preprocessing parameters specified
  let config := if p.isEmpty then eraseAll config "preprocessing"
                else setKey config "preprocessing" (.obj p)
  let config := if containsKey config "defaults" then config
                else setKey config "defaults" (.obj [])
  type_specific_preprocessing_params.foldlM applyDefaultForType config

/-- Driver loop over one feature sequence: each element of
`config.get(key, [])` is upgraded in place; `none` where Python raises on a
non-sequence value or a non-mapping element. -/
def upgradeFeatureList (config : Fields) (key : String) : Option Fields :=
  match lookupKey config key with
  | none => some config
  | some v => do
      let xs ← asList v
      let xs' ← xs.mapM _upgrade_feature
      pure (setKey config key (.list xs'))

/-- Driver stage (a): `config[TRAINER] = config[TRAINING]; del
config[TRAINING]`, guarded by `TRAINING in config` (replaces any prior
`trainer` value). -/
def renameTrainingSection (c : Fields) : Fields :=
  match lookupKey c "training" with
  | some tv => eraseAll (setKey c "trainer" tv) "training"
  | none => c

/-- Driver stage (c): run `_upgrade_hyperopt` on the hyperopt section when
present. -/
def driverHyperoptStage (c : Fields) : Option Fields :=
  match lookupKey c "hyperopt" with
  | some hv => do
      let hv' ← _upgrade_hyperopt hv
      pure (setKey c "hyperopt" hv')
  | none => pure c

/-- Driver stage (d): run `_upgrade_trainer` on the trainer section when
present. -/
def driverTrainerStage (c : Fields) : Option Fields :=
  match lookupKey c "trainer" with
  | some tv => do
      let tv' ← _upgrade_trainer tv
      pure (setKey c "trainer" tv')
  | none => pure c

/-- Driver stage (e): when a preprocessing section is present, run
`_upgrade_preprocessing_split` on it and then
`_upgrade_preprocessing_defaults` on the whole document. -/
def driverPreprocessingStage (input_feature_types : List String)
    (c : Fields) : Option Fields :=
  match lookupKey c "preprocessing" with
  | some pv => do
      let pv' ← _upgrade_preprocessing_split pv
      _upgrade_preprocessing_defaults input_feature_types (setKey c "preprocessing" pv')
  | none => pure c

/-- `upgrade_deprecated_fields(config)`: the full migration pass, in the fixed
order of the source — `training` renamed to `trainer`, features upgraded,
then the hyperopt, trainer and preprocessing (split, then defaults)
migrators, each only when its section is present. -/
def upgrade_deprecated_fields (input_feature_types : List String)
    (config : Value) : Option Value := do
  let c ← asObj config
  let c := renameTrainingSection c
  let c ← upgradeFeatureList c "input_features"
  let c ← upgradeFeatureList c "output_features"
  let c ← driverHyperoptStage c
  let c ← driverTrainerStage c
  let c ← driverPreprocessingStage input_feature_types c
  pure (.obj c)

/-! ## Auxiliary predicates used by the verification -/

/-- One mapping carries none of the deprecated bias-named keys. -/
def noBiasHere (m : Fields) : Bool :=
  !containsKey m "bias" && !containsKey m "conv_bias" && !containsKey m "default_bias"

mutual
/-- Every mapping reachable from the value — nested at any depth, through
mappings and sequences alike — carries none of the deprecated bias-named
keys. -/
def biasFree : Value → Bool
  | .obj kvs => noBiasHere kvs && biasFreeFields kvs
  | .list xs => biasFreeValues xs
  | .null => true
  | .bool _ => true
  | .int _ => true
  | .float _ => true
  | .str _ => true

/-- `biasFree` over the elements of a sequence. -/
def biasFreeValues : List Value → Bool
  | [] => true
  | v :: vs => biasFree v && biasFreeValues vs

/-- `biasFree` over the values of a mapping. -/
def biasFreeFields : Fields → Bool
  | [] => true
  | (_, v) :: rest => biasFree v && biasFreeFields rest
end

/-- No key of the mapping still carries the legacy `training.` prefix. -/
def noTrainingKeys (pm : Fields) : Prop :=
  ∀ q ∈ pm, strStartsWith q.1 "training." = false

/-- The parameters section of a hyperopt mapping, when present, is a mapping
with no legacy `training.` keys. -/
def ParametersOK (h : Fields) : Prop :=
  ∀ pv, lookupKey h "parameters" = some pv → ∃ pm, pv = Value.obj pm ∧ noTrainingKeys pm

/-- An executor mapping whose `type` no longer needs rewriting and that no
longer holds a `search_alg` key. -/
def ExecutorOK (e : Fields) : Prop :=
  (∀ t, lookupKey e "type" = some t → executorTypeNotRay t = false) ∧
  lookupKey e "search_alg" = none

/-- The hyperopt section shape established by `_upgrade_hyperopt`, on which it
acts as the identity: clean parameters, a normalized executor, no sampler,
and a top-level `search_alg`. -/
def HyperoptFixed (h : Fields) : Prop :=
  ParametersOK h ∧
  (∃ e, lookupKey h "executor" = some (.obj e) ∧ ExecutorOK e) ∧
  lookupKey h "sampler" = none ∧
  containsKey h "search_alg" = true

/-- A feature sequence, when present under `key`, whose every record is a
fixed point of `_upgrade_feature`. -/
def FeatureListFixed (c : Fields) (key : String) : Prop :=
  ∀ v, lookupKey c key = some v →
    ∃ xs, v = Value.list xs ∧ ∀ x ∈ xs, _upgrade_feature x = some x

/-- A trainer section, when present, whose `eval_batch_size` no longer
compares equal to `0`. -/
def TrainerSectionFixed (c : Fields) : Prop :=
  ∀ tv, lookupKey c "trainer" = some tv → ∃ t, tv = Value.obj t ∧
    ∀ v, lookupKey t "eval_batch_size" = some v → isPyZero v = false

/-- A hyperopt section, when present, of the `HyperoptFixed` shape. -/
def HyperoptSectionFixed (c : Fields) : Prop :=
  ∀ hv, lookupKey c "hyperopt" = some hv → ∃ hf, hv = Value.obj hf ∧ HyperoptFixed hf

/-- A preprocessing section, when present, that is a non-empty mapping with
no feature-type keys and no legacy split keys, with a `defaults` key at the
root. -/
def PreprocessingSectionFixed (R : List String) (c : Fields) : Prop :=
  ∀ pv, lookupKey c "preprocessing" = some pv → ∃ p, pv = Value.obj p ∧
    p.isEmpty = false ∧
    (∀ k, R.contains k = true → lookupKey p k = none) ∧
    lookupKey p "force_split" = none ∧ lookupKey p "split_probabilities" = none ∧
    lookupKey p "stratify" = none ∧
    containsKey c "defaults" = true

/-- The whole-document shape established by one successful run of
`upgrade_deprecated_fields`, on which the pass acts as the identity. -/
def DriverFixed (R : List String) (c : Fields) : Prop :=
  lookupKey c "training" = none ∧
  FeatureListFixed c "input_features" ∧ FeatureListFixed c "output_features" ∧
  HyperoptSectionFixed c ∧ TrainerSectionFixed c ∧ PreprocessingSectionFixed R c

/-- The root keys the migration pass recognizes and may read or rewrite:
`training`, `trainer`, `input_features`, `output_features`, `hyperopt`,
`preprocessing`, `defaults`. -/
def recognizedRootKeys : List String :=
  ["training", "trainer", "input_features", "output_features", "hyperopt",
   "preprocessing", "defaults"]

/-- Two documents that agree on every recognized root key. -/
def AgreeOnRecognized (m m2 : Fields) : Prop :=
  ∀ r ∈ recognizedRootKeys, lookupKey m r = lookupKey m2 r

/-- A document transformation that depends only on the recognized root keys:
on agreeing documents it fails together or succeeds together with agreeing
results. -/
def StageCongr (f : Fields → Option Fields) : Prop :=
  ∀ m m2, AgreeOnRecognized m m2 →
    (f m = none ∧ f m2 = none) ∨
    ∃ c c2, f m = some c ∧ f m2 = some c2 ∧ AgreeOnRecognized c c2

/-! ## Association-list lemmas -/

@[simp] theorem lookupKey_nil (k : String) : lookupKey [] k = none := rfl

@[simp] theorem lookupKey_cons (k' : String) (v : Value) (rest : Fields) (k : String) :
    lookupKey ((k', v) :: rest) k = if k' = k then some v else lookupKey rest k := rfl

@[simp] theorem setKey_nil (k : String) (v : Value) : setKey [] k v = [(k, v)] := rfl

@[simp] theorem setKey_cons (k' : String) (v' : Value) (rest : Fields) (k : String) (v : Value) :
    setKey ((k', v') :: rest) k v
      = if k' = k then (k, v) :: rest else (k', v') :: setKey rest k v := rfl

/-- Looking up the key just written finds the written value. -/
theorem lookupKey_setKey_self (m : Fields) (k : String) (v : Value) :
    lookupKey (setKey m k v) k = some v := by
  induction m with
  | nil => simp [setKey, lookupKey]
  | cons p rest ih =>
    obtain ⟨k', v'⟩ := p
    by_cases h : k' = k <;> simp [setKey, lookupKey, h, ih]

/-- Writing one key leaves lookups of any other key unchanged. -/
theorem lookupKey_setKey_ne (m : Fields) (k a : String) (v : Value) (h : a ≠ k) :
    lookupKey (setKey m k v) a = lookupKey m a := by
  have hka : ¬k = a := fun hh => h hh.symm
  induction m with
  | nil => simp [setKey, lookupKey, hka]
  | cons p rest ih =>
    obtain ⟨k', v'⟩ := p
    by_cases hk : k' = k
    · subst hk
      simp [setKey, lookupKey, hka]
    · simp only [setKey, if_neg hk, lookupKey_cons]
      by_cases ha : k' = a <;> simp [ha, ih]

@[simp] theorem eraseAll_nil (k : String) : eraseAll [] k = [] := rfl

theorem eraseAll_cons (k' : String) (v' : Value) (rest : Fields) (k : String) :
    eraseAll ((k', v') :: rest) k
      = if k' = k then eraseAll rest k else (k', v') :: eraseAll rest k := by
  by_cases h : k' = k <;> simp [eraseAll, List.filter_cons, h]

/-- After erasing a key it is gone. -/
theorem lookupKey_eraseAll_self (m : Fields) (k : String) :
    lookupKey (eraseAll m k) k = none := by
  induction m with
  | nil => simp
  | cons p rest ih =>
    obtain ⟨k', v'⟩ := p
    rw [eraseAll_cons]
    by_cases h : k' = k <;> simp [h, lookupKey, ih]

/-- Erasing one key leaves lookups of any other key unchanged. -/
theorem lookupKey_eraseAll_ne (m : Fields) (k a : String) (h : a ≠ k) :
    lookupKey (eraseAll m k) a = lookupKey m a := by
  induction m with
  | nil => simp
  | cons p rest ih =>
    obtain ⟨k', v'⟩ := p
    rw [eraseAll_cons]
    by_cases hk : k' = k
    · subst hk
      have : ¬k' = a := fun hh => h hh.symm
      simp [lookupKey, this, ih]
    · by_cases ha : k' = a
      · subst ha
        have : ¬k' = k := hk
        simp [lookupKey, this]
      · simp [lookupKey, hk, ha, ih]

/-- Overwriting a key with the value it already holds is a no-op. -/
theorem setKey_lookup_self (m : Fields) (k : String) (v : Value)
    (h : lookupKey m k = some v) : setKey m k v = m := by
  induction m with
  | nil => simp [lookupKey] at h
  | cons p rest ih =>
    obtain ⟨k', v'⟩ := p
    by_cases hk : k' = k
    · subst hk
      rw [lookupKey_cons, if_pos rfl] at h
      cases h
      simp [setKey]
    · simp only [lookupKey_cons, if_neg hk] at h
      simp [setKey, hk, ih h]

/-- A key is absent exactly when no entry carries it. -/
theorem lookupKey_eq_none_iff (m : Fields) (k : String) :
    lookupKey m k = none ↔ ∀ p ∈ m, p.1 ≠ k := by
  induction m with
  | nil => simp
  | cons p rest ih =>
    obtain ⟨k', v'⟩ := p
    by_cases h : k' = k <;> simp [lookupKey, h, ih]

/-- Erasing an absent key is a no-op. -/
theorem eraseAll_of_lookup_none (m : Fields) (k : String)
    (h : lookupKey m k = none) : eraseAll m k = m := by
  rw [lookupKey_eq_none_iff] at h
  induction m with
  | nil => simp
  | cons p rest ih =>
    rw [eraseAll_cons]
    have hp := h p (by simp)
    rw [if_neg (by simpa using hp)]
    simp only [List.cons.injEq, true_and]
    exact ih (fun q hq => h q (by simp [hq]))

@[simp] theorem containsKey_setKey_self (m : Fields) (k : String) (v : Value) :
    containsKey (setKey m k v) k = true := by
  simp [containsKey, lookupKey_setKey_self]

theorem containsKey_setKey_ne (m : Fields) (k a : String) (v : Value) (h : a ≠ k) :
    containsKey (setKey m k v) a = containsKey m a := by
  simp [containsKey, lookupKey_setKey_ne m k a v h]

@[simp] theorem containsKey_eraseAll_self (m : Fields) (k : String) :
    containsKey (eraseAll m k) k = false := by
  simp [containsKey, lookupKey_eraseAll_self]

theorem containsKey_eraseAll_ne (m : Fields) (k a : String) (h : a ≠ k) :
    containsKey (eraseAll m k) a = containsKey m a := by
  simp [containsKey, lookupKey_eraseAll_ne m k a h]

/-- A present key names some entry. -/
theorem lookupKey_isSome_iff_mem_keysOf (m : Fields) (k : String) :
    (lookupKey m k).isSome ↔ k ∈ keysOf m := by
  induction m with
  | nil => simp [keysOf]
  | cons p rest ih =>
    obtain ⟨k', v'⟩ := p
    by_cases h : k' = k
    · simp [lookupKey, keysOf, h]
    · simp [lookupKey, keysOf, h, ih]
      tauto

/-! ## Membership lemmas -/

/-- Entries of `setKey m k v` come from `m` or are the written pair. -/
theorem mem_setKey (m : Fields) (k : String) (v : Value) (q : String × Value)
    (hq : q ∈ setKey m k v) : q ∈ m ∨ q = (k, v) := by
  induction m with
  | nil => simpa [setKey] using hq
  | cons p rest ih =>
    obtain ⟨k', v'⟩ := p
    by_cases h : k' = k
    · simp only [setKey, if_pos h] at hq
      rcases List.mem_cons.mp hq with h1 | h1
      · right; exact h1
      · left; exact List.mem_cons_of_mem _ h1
    · simp only [setKey, if_neg h] at hq
      rcases List.mem_cons.mp hq with h1 | h1
      · left; simp [h1]
      · rcases ih h1 with h2 | h2
        · left; exact List.mem_cons_of_mem _ h2
        · right; exact h2

/-- Entries of `eraseAll m k` come from `m`. -/
theorem mem_eraseAll (m : Fields) (k : String) (q : String × Value)
    (hq : q ∈ eraseAll m k) : q ∈ m :=
  List.mem_of_mem_filter hq

/-- A looked-up value is the value of some entry. -/
theorem lookupKey_mem (m : Fields) (k : String) (v : Value)
    (h : lookupKey m k = some v) : (k, v) ∈ m := by
  induction m with
  | nil => simp [lookupKey] at h
  | cons p rest ih =>
    obtain ⟨k', v'⟩ := p
    by_cases hk : k' = k
    · subst hk
      rw [lookupKey_cons, if_pos rfl] at h
      cases h
      exact List.mem_cons_self _ _
    · rw [lookupKey_cons, if_neg hk] at h
      exact List.mem_cons_of_mem _ (ih h)

/-! ## Bias renaming and the tree walker -/

/-- The renamed-from key is absent after `renameField`. -/
theorem lookupKey_renameField_old (m : Fields) (a b : String) :
    lookupKey (renameField m a b) a = none := by
  unfold renameField
  cases h : lookupKey m a with
  | none => exact h
  | some v => exact lookupKey_eraseAll_self _ a

/-- `renameField` leaves keys other than the two named ones alone. -/
theorem lookupKey_renameField_other (m : Fields) (a b c : String)
    (hca : c ≠ a) (hcb : c ≠ b) :
    lookupKey (renameField m a b) c = lookupKey m c := by
  unfold renameField
  cases h : lookupKey m a with
  | none => rfl
  | some v => rw [lookupKey_eraseAll_ne _ _ _ hca, lookupKey_setKey_ne _ _ _ _ hcb]

/-- The renamed-to key holds the moved value when the source key was present
(for distinct key names). -/
theorem lookupKey_renameField_new (m : Fields) (a b : String) (v : Value)
    (hab : a ≠ b) (h : lookupKey m a = some v) :
    lookupKey (renameField m a b) b = some v := by
  unfold renameField
  rw [h, lookupKey_eraseAll_ne _ _ _ (Ne.symm hab), lookupKey_setKey_self]

/-- `_upgrade_use_bias` never leaves a `bias` key. -/
theorem upgrade_use_bias_no_bias (m : Fields) :
    lookupKey (_upgrade_use_bias m) "bias" = none := by
  unfold _upgrade_use_bias
  rw [lookupKey_renameField_other _ _ _ _ (by decide) (by decide),
    lookupKey_renameField_other _ _ _ _ (by decide) (by decide),
    lookupKey_renameField_old _ _ _]

/-- `_upgrade_use_bias` never leaves a `conv_bias` key. -/
theorem upgrade_use_bias_no_conv_bias (m : Fields) :
    lookupKey (_upgrade_use_bias m) "conv_bias" = none := by
  unfold _upgrade_use_bias
  rw [lookupKey_renameField_other _ _ _ _ (by decide) (by decide),
    lookupKey_renameField_old _ _ _]

/-- `_upgrade_use_bias` never leaves a `default_bias` key. -/
theorem upgrade_use_bias_no_default_bias (m : Fields) :
    lookupKey (_upgrade_use_bias m) "default_bias" = none := by
  unfold _upgrade_use_bias
  rw [lookupKey_renameField_old _ _ _]

/-- After `_upgrade_use_bias` a mapping carries no deprecated bias key. -/
theorem noBiasHere_upgrade_use_bias (m : Fields) :
    noBiasHere (_upgrade_use_bias m) = true := by
  simp [noBiasHere, containsKey, upgrade_use_bias_no_bias,
    upgrade_use_bias_no_conv_bias, upgrade_use_bias_no_default_bias]

/-- `_upgrade_use_bias` does not touch keys outside the three renamed pairs. -/
theorem lookupKey_upgrade_use_bias_other (m : Fields) (k : String)
    (h1 : k ≠ "bias") (h2 : k ≠ "use_bias") (h3 : k ≠ "conv_bias")
    (h4 : k ≠ "conv_use_bias") (h5 : k ≠ "default_bias") (h6 : k ≠ "default_use_bias") :
    lookupKey (_upgrade_use_bias m) k = lookupKey m k := by
  unfold _upgrade_use_bias
  rw [lookupKey_renameField_other _ _ _ _ h5 h6, lookupKey_renameField_other _ _ _ _ h3 h4,
    lookupKey_renameField_other _ _ _ _ h1 h2]

/-- An absent key, as a lookup equation. -/
theorem lookupKey_eq_none_of_not_contains (m : Fields) (k : String)
    (h : containsKey m k = false) : lookupKey m k = none := by
  unfold containsKey at h
  cases hl : lookupKey m k with
  | none => rfl
  | some v => rw [hl] at h; simp at h

/-- A mapping free of bias keys is a fixed point of `_upgrade_use_bias`. -/
theorem upgrade_use_bias_of_noBiasHere (m : Fields) (h : noBiasHere m = true) :
    _upgrade_use_bias m = m := by
  simp only [noBiasHere, Bool.and_eq_true, Bool.not_eq_true'] at h
  obtain ⟨⟨h1, h2⟩, h3⟩ := h
  unfold _upgrade_use_bias renameField
  rw [lookupKey_eq_none_of_not_contains _ _ h1, lookupKey_eq_none_of_not_contains _ _ h2,
    lookupKey_eq_none_of_not_contains _ _ h3]

/-- `biasFreeFields` holds exactly when every stored value is `biasFree`. -/
theorem biasFreeFields_iff (m : Fields) :
    biasFreeFields m = true ↔ ∀ p ∈ m, biasFree p.2 = true := by
  induction m with
  | nil => simp [biasFreeFields]
  | cons p rest ih =>
    obtain ⟨k, v⟩ := p
    simp [biasFreeFields, ih]

/-- `biasFreeValues` holds exactly when every element is `biasFree`. -/
theorem biasFreeValues_iff (xs : List Value) :
    biasFreeValues xs = true ↔ ∀ v ∈ xs, biasFree v = true := by
  induction xs with
  | nil => simp [biasFreeValues]
  | cons v rest ih => simp [biasFreeValues, ih]

/-- `renameField` preserves pointwise bias-freeness of the stored values. -/
theorem biasFreeFields_renameField (m : Fields) (a b : String)
    (h : biasFreeFields m = true) : biasFreeFields (renameField m a b) = true := by
  rw [biasFreeFields_iff] at h ⊢
  intro q hq
  unfold renameField at hq
  cases hl : lookupKey m a with
  | none => rw [hl] at hq; exact h q hq
  | some v =>
    rw [hl] at hq
    have hv : biasFree v = true := h _ (lookupKey_mem m a v hl)
    rcases mem_setKey _ _ _ _ (mem_eraseAll _ _ _ hq) with h1 | h1
    · exact h q h1
    · rw [h1]; exact hv

/-- `_upgrade_use_bias` preserves pointwise bias-freeness of the stored
values. -/
theorem biasFreeFields_upgrade_use_bias (m : Fields)
    (h : biasFreeFields m = true) : biasFreeFields (_upgrade_use_bias m) = true := by
  unfold _upgrade_use_bias
  exact biasFreeFields_renameField _ _ _
    (biasFreeFields_renameField _ _ _ (biasFreeFields_renameField _ _ _ h))

mutual
/-- After the walk with `_upgrade_use_bias`, no reachable mapping carries a
deprecated bias key. -/
theorem biasFree_traverse : ∀ v : Value,
    biasFree (_traverse_dicts _upgrade_use_bias v) = true
  | .obj kvs => by
      rw [_traverse_dicts]
      simp only [biasFree, Bool.and_eq_true]
      exact ⟨noBiasHere_upgrade_use_bias _,
        biasFreeFields_upgrade_use_bias _ (biasFreeFields_traverse kvs)⟩
  | .list xs => by
      rw [_traverse_dicts]
      simp only [biasFree]
      exact biasFreeValues_traverse xs
  | .null => rfl
  | .bool _ => rfl
  | .int _ => rfl
  | .float _ => rfl
  | .str _ => rfl

/-- Element-wise form of `biasFree_traverse` for sequences. -/
theorem biasFreeValues_traverse : ∀ xs : List Value,
    biasFreeValues (traverseValues _upgrade_use_bias xs) = true
  | [] => rfl
  | v :: vs => by
      rw [traverseValues]
      simp only [biasFreeValues, Bool.and_eq_true]
      exact ⟨biasFree_traverse v, biasFreeValues_traverse vs⟩

/-- Value-wise form of `biasFree_traverse` for mappings. -/
theorem biasFreeFields_traverse : ∀ m : Fields,
    biasFreeFields (traverseFields _upgrade_use_bias m) = true
  | [] => rfl
  | (k, v) :: rest => by
      rw [traverseFields]
      simp only [biasFreeFields, Bool.and_eq_true]
      exact ⟨biasFree_traverse v, biasFreeFields_traverse rest⟩
end

mutual
/-- A value with no reachable bias key is a fixed point of the walk. -/
theorem traverse_of_biasFree : ∀ v : Value, biasFree v = true →
    _traverse_dicts _upgrade_use_bias v = v
  | .obj kvs => by
      intro h
      simp only [biasFree, Bool.and_eq_true] at h
      rw [_traverse_dicts, traverseFields_of_biasFree kvs h.2,
        upgrade_use_bias_of_noBiasHere kvs h.1]
  | .list xs => by
      intro h
      simp only [biasFree] at h
      rw [_traverse_dicts, traverseValues_of_biasFree xs h]
  | .null => fun _ => rfl
  | .bool _ => fun _ => rfl
  | .int _ => fun _ => rfl
  | .float _ => fun _ => rfl
  | .str _ => fun _ => rfl

/-- Element-wise form of `traverse_of_biasFree` for sequences. -/
theorem traverseValues_of_biasFree : ∀ xs : List Value, biasFreeValues xs = true →
    traverseValues _upgrade_use_bias xs = xs
  | [] => fun _ => rfl
  | v :: vs => by
      intro h
      simp only [biasFreeValues, Bool.and_eq_true] at h
      rw [traverseValues, traverse_of_biasFree v h.1, traverseValues_of_biasFree vs h.2]

/-- Value-wise form of `traverse_of_biasFree` for mappings. -/
theorem traverseFields_of_biasFree : ∀ m : Fields, biasFreeFields m = true →
    traverseFields _upgrade_use_bias m = m
  | [] => fun _ => rfl
  | (k, v) :: rest => by
      intro h
      simp only [biasFreeFields, Bool.and_eq_true] at h
      rw [traverseFields, traverse_of_biasFree v h.1, traverseFields_of_biasFree rest h.2]
end

/-- Keys are unchanged by the walk over a mapping's values; each stored value
is walked. -/
theorem lookupKey_traverseFields (f : Fields → Fields) (m : Fields) (k : String) :
    lookupKey (traverseFields f m) k = (lookupKey m k).map (_traverse_dicts f) := by
  induction m with
  | nil => rw [traverseFields]; rfl
  | cons p rest ih =>
    obtain ⟨k', v⟩ := p
    rw [traverseFields]
    by_cases h : k' = k <;> simp [lookupKey, h, ih]

/-- Only a string node walks to a string node. -/
theorem traverse_eq_str (f : Fields → Fields) (v : Value) (s : String)
    (h : _traverse_dicts f v = .str s) : v = .str s := by
  cases v <;> simp_all [_traverse_dicts]

/-- A mapping whose `type` is no longer the string `"numerical"` is a fixed
point of the type-rewrite step. -/
theorem featureTypeStep_eq_self (m : Fields)
    (h : ∀ s, lookupKey m "type" = some (.str s) → s ≠ "numerical") :
    featureTypeStep m = m := by
  unfold featureTypeStep
  cases hl : lookupKey m "type" with
  | none => rfl
  | some v =>
    cases v with
    | str s =>
      show (if s = "numerical" then setKey m "type" (.str "number") else m) = m
      rw [if_neg (h s hl)]
    | null => rfl
    | bool _ => rfl
    | int _ => rfl
    | float _ => rfl
    | list _ => rfl
    | obj _ => rfl

/-- The type-rewrite step never leaves a `"numerical"` string tag. -/
theorem featureTypeStep_no_numerical (m : Fields) (s : String)
    (h : lookupKey (featureTypeStep m) "type" = some (.str s)) : s ≠ "numerical" := by
  unfold featureTypeStep at h
  cases hl : lookupKey m "type" with
  | none => rw [hl] at h; rw [h] at hl; cases hl
  | some v =>
    rw [hl] at h
    cases v with
    | str t =>
      change lookupKey (if t = "numerical" then setKey m "type" (.str "number") else m)
        "type" = some (.str s) at h
      by_cases ht : t = "numerical"
      · rw [if_pos ht, lookupKey_setKey_self] at h
        cases h
        decide
      · rw [if_neg ht] at h
        rw [h] at hl
        cases hl
        exact ht
    | null => rw [h] at hl; cases hl
    | bool _ => rw [h] at hl; cases hl
    | int _ => rw [h] at hl; cases hl
    | float _ => rw [h] at hl; cases hl
    | list _ => rw [h] at hl; cases hl
    | obj _ => rw [h] at hl; cases hl

/-- The feature migrator is idempotent: a migrated feature record is a fixed
point. -/
theorem upgrade_feature_idem (f f' : Value) (h : _upgrade_feature f = some f') :
    _upgrade_feature f' = some f' := by
  unfold _upgrade_feature at h
  cases f with
  | obj m =>
    simp only [asObj, Option.pure_def, Option.bind_eq_bind, Option.some_bind] at h
    rw [_traverse_dicts] at h
    set m2 : Fields := _upgrade_use_bias (traverseFields _upgrade_use_bias (featureTypeStep m))
      with hm2
    have hf' : f' = .obj m2 := by
      simp only [Option.pure_def, Option.some.injEq] at h
      exact h.symm
    have hbf : biasFree (Value.obj m2) = true := by
      rw [hm2]
      have := biasFree_traverse (Value.obj (featureTypeStep m))
      rwa [_traverse_dicts] at this
    have htype : ∀ s, lookupKey m2 "type" = some (.str s) → s ≠ "numerical" := by
      intro s hs
      rw [hm2] at hs
      rw [lookupKey_upgrade_use_bias_other _ _ (by decide) (by decide) (by decide)
        (by decide) (by decide) (by decide), lookupKey_traverseFields] at hs
      cases hl : lookupKey (featureTypeStep m) "type" with
      | none => rw [hl] at hs; cases hs
      | some w =>
        rw [hl] at hs
        simp only [Option.map_some', Option.some.injEq] at hs
        have hw : w = .str s := traverse_eq_str _ _ _ hs
        rw [hw] at hl
        exact featureTypeStep_no_numerical m s hl
    rw [hf']
    unfold _upgrade_feature
    simp only [asObj, Option.pure_def, Option.bind_eq_bind, Option.some_bind]
    rw [featureTypeStep_eq_self m2 htype, traverse_of_biasFree _ hbf]
  | null => simp [asObj] at h
  | bool _ => simp [asObj] at h
  | int _ => simp [asObj] at h
  | float _ => simp [asObj] at h
  | str _ => simp [asObj] at h
  | list _ => simp [asObj] at h

/-! ## Trainer migrator -/

/-- A trainer mapping whose `eval_batch_size` no longer compares equal to `0`
is a fixed point of the trainer migrator. -/
theorem upgrade_trainer_of_fixed (t : Fields)
    (h : ∀ v, lookupKey t "eval_batch_size" = some v → isPyZero v = false) :
    _upgrade_trainer (.obj t) = some (.obj t) := by
  unfold _upgrade_trainer
  simp only [asObj, Option.pure_def, Option.bind_eq_bind, Option.some_bind]
  cases hl : lookupKey t "eval_batch_size" with
  | none => rfl
  | some v => simp [h v hl]

/-- The trainer migrator is idempotent. -/
theorem upgrade_trainer_idem (t t' : Value) (h : _upgrade_trainer t = some t') :
    _upgrade_trainer t' = some t' := by
  cases t with
  | obj m =>
    unfold _upgrade_trainer at h
    simp only [asObj, Option.pure_def, Option.bind_eq_bind, Option.some_bind] at h
    cases hl : lookupKey m "eval_batch_size" with
    | none =>
      simp only [hl] at h
      cases h
      exact upgrade_trainer_of_fixed m (fun v hv => by rw [hv] at hl; cases hl)
    | some v =>
      simp only [hl] at h
      by_cases hz : isPyZero v = true
      · rw [if_pos hz] at h
        cases h
        refine upgrade_trainer_of_fixed _ (fun w hw => ?_)
        rw [lookupKey_setKey_self] at hw
        cases hw
        rfl
      · rw [if_neg hz] at h
        cases h
        exact upgrade_trainer_of_fixed m
          (fun w hw => by rw [hw] at hl; cases hl; exact Bool.eq_false_iff.mpr hz)
  | null => simp [_upgrade_trainer, asObj] at h
  | bool _ => simp [_upgrade_trainer, asObj] at h
  | int _ => simp [_upgrade_trainer, asObj] at h
  | float _ => simp [_upgrade_trainer, asObj] at h
  | str _ => simp [_upgrade_trainer, asObj] at h
  | list _ => simp [_upgrade_trainer, asObj] at h

/-! ## Split migrator -/

/-- A preprocessing mapping with none of the three legacy split keys is left
exactly as it is by the split migrator: nothing is popped and no `split` key
is written. -/
theorem split_noLegacy (p : Fields)
    (h1 : lookupKey p "force_split" = none)
    (h2 : lookupKey p "split_probabilities" = none)
    (h3 : lookupKey p "stratify" = none) :
    _upgrade_preprocessing_split (.obj p) = some (.obj p) := by
  unfold _upgrade_preprocessing_split
  simp only [asObj, popKey, Option.pure_def, Option.bind_eq_bind, Option.some_bind]
  rw [eraseAll_of_lookup_none _ _ h1]
  rw [eraseAll_of_lookup_none _ _ h2]
  rw [eraseAll_of_lookup_none _ _ h3]
  simp [h1, h2, h3]

/-- Absence of a legacy key below the conditional `split` write. -/
theorem lookup_split_write_none (m sp : Fields) (k : String) (hk : k ≠ "split")
    (h : lookupKey m k = none) :
    lookupKey (if sp.isEmpty then m else setKey m "split" (.obj sp)) k = none := by
  by_cases hc : sp.isEmpty <;>
    simp [hc, lookupKey_setKey_ne _ _ _ _ hk, h]

/-- The conditional `split` write leaves all other keys unchanged. -/
theorem lookup_if_split_frame (m sp : Fields) (k : String) (hk : k ≠ "split") :
    lookupKey (if sp.isEmpty then m else setKey m "split" (.obj sp)) k
      = lookupKey m k := by
  by_cases hc : sp.isEmpty <;>
    simp [hc, lookupKey_setKey_ne _ _ _ _ hk]

/-- The split migrator is idempotent. -/
theorem upgrade_preprocessing_split_idem (p p' : Value)
    (h : _upgrade_preprocessing_split p = some p') :
    _upgrade_preprocessing_split p' = some p' := by
  cases p with
  | obj m =>
    unfold _upgrade_preprocessing_split at h
    simp only [asObj, popKey, Option.pure_def, Option.bind_eq_bind, Option.some_bind,
      Option.some.injEq] at h
    have hfs : lookupKey (eraseAll (eraseAll (eraseAll m "force_split")
        "split_probabilities") "stratify") "force_split" = none := by
      rw [lookupKey_eraseAll_ne _ _ _ (by decide), lookupKey_eraseAll_ne _ _ _ (by decide),
        lookupKey_eraseAll_self]
    have hsp : lookupKey (eraseAll (eraseAll (eraseAll m "force_split")
        "split_probabilities") "stratify") "split_probabilities" = none := by
      rw [lookupKey_eraseAll_ne _ _ _ (by decide), lookupKey_eraseAll_self]
    have hst : lookupKey (eraseAll (eraseAll (eraseAll m "force_split")
        "split_probabilities") "stratify") "stratify" = none := by
      rw [lookupKey_eraseAll_self]
    rw [← h]
    exact split_noLegacy _
      (lookup_split_write_none _ _ _ (by decide) hfs)
      (lookup_split_write_none _ _ _ (by decide) hsp)
      (lookup_split_write_none _ _ _ (by decide) hst)
  | null => simp [_upgrade_preprocessing_split, asObj] at h
  | bool _ => simp [_upgrade_preprocessing_split, asObj] at h
  | int _ => simp [_upgrade_preprocessing_split, asObj] at h
  | float _ => simp [_upgrade_preprocessing_split, asObj] at h
  | str _ => simp [_upgrade_preprocessing_split, asObj] at h
  | list _ => simp [_upgrade_preprocessing_split, asObj] at h

/-! ## Hyperopt migrator -/

/-- A key renamed to the `trainer.` prefix no longer carries the `training.`
prefix. -/
theorem strStartsWith_trainer (s : String) :
    strStartsWith ("trainer." ++ s) "training." = false := by
  simp [strStartsWith, String.append, List.isPrefixOf]

/-- Every key whose `training.` prefix is still to be processed is scheduled;
after the fold no key carries the prefix. -/
theorem foldl_renameTrainingParam_clean (l : List (String × Value)) (acc : Fields)
    (hacc : ∀ q ∈ acc, strStartsWith q.1 "training." = true → ∃ r ∈ l, r.1 = q.1) :
    noTrainingKeys (l.foldl renameTrainingParam acc) := by
  induction l generalizing acc with
  | nil =>
    intro q hq
    cases hsw : strStartsWith q.1 "training." with
    | false => rfl
    | true => rcases hacc q hq hsw with ⟨r, hr, _⟩; cases hr
  | cons x xs ih =>
    rw [List.foldl_cons]
    apply ih
    intro q hq hdirty
    unfold renameTrainingParam at hq
    by_cases hx : strStartsWith x.1 "training." = true
    · rw [if_pos hx] at hq
      have hne : q.1 ≠ x.1 := by simpa using List.of_mem_filter hq
      rcases mem_setKey _ _ _ _ (mem_eraseAll _ _ _ hq) with h1 | h1
      · rcases hacc q h1 hdirty with ⟨r, hr, hre⟩
        rcases List.mem_cons.mp hr with h2 | h2
        · exact absurd (h2 ▸ hre) (fun he => hne he.symm)
        · exact ⟨r, h2, hre⟩
      · rw [h1] at hdirty
        exact absurd hdirty (by simp [strStartsWith_trainer])
    · rw [if_neg hx] at hq
      rcases hacc q hq hdirty with ⟨r, hr, hre⟩
      rcases List.mem_cons.mp hr with h2 | h2
      · rw [← hre, h2] at hdirty
        exact absurd hdirty hx
      · exact ⟨r, h2, hre⟩

/-- The rename fold does nothing on a snapshot with no `training.` keys. -/
theorem foldl_renameTrainingParam_of_clean (l : List (String × Value)) (acc : Fields)
    (hl : ∀ x ∈ l, strStartsWith x.1 "training." = false) :
    l.foldl renameTrainingParam acc = acc := by
  induction l generalizing acc with
  | nil => rfl
  | cons x xs ih =>
    rw [List.foldl_cons]
    unfold renameTrainingParam
    rw [if_neg (by simp [hl x (by simp)])]
    exact ih _ (fun y hy => hl y (by simp [hy]))

/-- What the parameters block establishes, and its frame. -/
theorem hyperoptParametersStep_out (h h1 : Fields)
    (hs : hyperoptParametersStep h = some h1) :
    ParametersOK h1 ∧ ∀ k, k ≠ "parameters" → lookupKey h1 k = lookupKey h k := by
  unfold hyperoptParametersStep at hs
  cases hl : lookupKey h "parameters" with
  | none =>
    rw [hl] at hs
    cases hs
    refine ⟨fun pv hpv => ?_, fun k _ => rfl⟩
    rw [hpv] at hl
    cases hl
  | some pv =>
    rw [hl] at hs
    cases pv with
    | obj pm =>
      simp only [asObj, Option.pure_def, Option.bind_eq_bind, Option.some_bind,
        Option.some.injEq] at hs
      subst hs
      constructor
      · intro pv' hpv'
        rw [lookupKey_setKey_self] at hpv'
        cases hpv'
        exact ⟨_, rfl, foldl_renameTrainingParam_clean pm pm
          (fun q hq _ => ⟨q, hq, rfl⟩)⟩
      · intro k hk
        exact lookupKey_setKey_ne _ _ _ _ hk
    | null => simp [asObj] at hs
    | bool _ => simp [asObj] at hs
    | int _ => simp [asObj] at hs
    | float _ => simp [asObj] at hs
    | str _ => simp [asObj] at hs
    | list _ => simp [asObj] at hs

/-- A hyperopt mapping with clean parameters is a fixed point of the
parameters block. -/
theorem hyperoptParametersStep_fixed (h : Fields) (hp : ParametersOK h) :
    hyperoptParametersStep h = some h := by
  unfold hyperoptParametersStep
  cases hl : lookupKey h "parameters" with
  | none => rfl
  | some pv =>
    rcases hp pv hl with ⟨pm, rfl, hclean⟩
    simp only [asObj, Option.pure_def, Option.bind_eq_bind, Option.some_bind,
      Option.some.injEq]
    rw [foldl_renameTrainingParam_of_clean pm pm hclean, setKey_lookup_self _ _ _ hl]

/-- The executor created for a missing section is normalized. -/
theorem executorOK_ray : ExecutorOK [("type", Value.str "ray")] := by
  refine ⟨fun t ht => ?_, rfl⟩
  have h : some (Value.str "ray") = some t := by simpa [lookupKey] using ht
  cases h
  rfl

/-- The type-normalization match of the executor block keeps `ExecutorOK`
facts and establishes the type fact. -/
theorem executorOK_typeStep (e : Fields) :
    (∀ t, lookupKey (match lookupKey e "type" with
        | some t => if executorTypeNotRay t = true then setKey e "type" (.str "ray") else e
        | none => e) "type" = some t → executorTypeNotRay t = false) := by
  intro t ht
  cases hlt : lookupKey e "type" with
  | none =>
    simp only [hlt] at ht
    simp at ht
  | some t0 =>
    simp only [hlt] at ht
    by_cases hnr : executorTypeNotRay t0 = true
    · rw [if_pos hnr, lookupKey_setKey_self] at ht
      cases ht
      rfl
    · rw [if_neg hnr, hlt] at ht
      cases ht
      exact Bool.eq_false_iff.mpr hnr

/-- The type-normalization match does not touch other executor keys. -/
theorem lookup_typeStep_ne (e : Fields) (k : String) (hk : k ≠ "type") :
    lookupKey (match lookupKey e "type" with
      | some t => if executorTypeNotRay t = true then setKey e "type" (.str "ray") else e
      | none => e) k = lookupKey e k := by
  cases hlt : lookupKey e "type" with
  | none => rfl
  | some t0 =>
    by_cases hnr : executorTypeNotRay t0 = true
    · simp only [if_pos hnr]
      exact lookupKey_setKey_ne _ _ _ _ hk
    · simp only [if_neg hnr]

/-- What the executor block establishes, and its frame. -/
theorem hyperoptExecutorStep_out (h h2 : Fields)
    (hs : hyperoptExecutorStep h = some h2) :
    (∃ e, lookupKey h2 "executor" = some (.obj e) ∧ ExecutorOK e) ∧
    ∀ k, k ≠ "executor" → k ≠ "search_alg" → lookupKey h2 k = lookupKey h k := by
  unfold hyperoptExecutorStep at hs
  cases hl : lookupKey h "executor" with
  | none =>
    rw [hl] at hs
    cases hs
    exact ⟨⟨_, lookupKey_setKey_self _ _ _, executorOK_ray⟩,
      fun k hk _ => lookupKey_setKey_ne _ _ _ _ hk⟩
  | some ev =>
    rw [hl] at hs
    cases ev with
    | obj e =>
      simp only [asObj, Option.pure_def, Option.bind_eq_bind, Option.some_bind,
        Option.some.injEq] at hs
      cases hsa : lookupKey (match lookupKey e "type" with
          | some t => if executorTypeNotRay t = true then setKey e "type" (.str "ray") else e
          | none => e) "search_alg" with
      | none =>
        simp only [hsa] at hs
        cases hs
        refine ⟨⟨_, lookupKey_setKey_self _ _ _, executorOK_typeStep e, hsa⟩,
          fun k hk _ => lookupKey_setKey_ne _ _ _ _ hk⟩
      | some sv =>
        simp only [hsa] at hs
        cases hs
        constructor
        · refine ⟨_, lookupKey_setKey_self _ _ _, fun t ht => ?_, lookupKey_eraseAll_self _ _⟩
          rw [lookupKey_eraseAll_ne _ _ _ (by decide)] at ht
          exact executorOK_typeStep e t ht
        · intro k hk1 hk2
          rw [lookupKey_setKey_ne _ _ _ _ hk1]
          by_cases hc : containsKey h "search_alg" = true
          · rw [if_pos hc]
          · rw [if_neg hc, lookupKey_setKey_ne _ _ _ _ hk2]
    | null => simp [asObj] at hs
    | bool _ => simp [asObj] at hs
    | int _ => simp [asObj] at hs
    | float _ => simp [asObj] at hs
    | str _ => simp [asObj] at hs
    | list _ => simp [asObj] at hs

/-- A hyperopt mapping with a normalized executor is a fixed point of the
executor block. -/
theorem hyperoptExecutorStep_fixed (h : Fields)
    (he : ∃ e, lookupKey h "executor" = some (.obj e) ∧ ExecutorOK e) :
    hyperoptExecutorStep h = some h := by
  rcases he with ⟨e, he, hty, hsa⟩
  unfold hyperoptExecutorStep
  rw [he]
  simp only [asObj, Option.pure_def, Option.bind_eq_bind, Option.some_bind,
    Option.some.injEq]
  have htypeid : (match lookupKey e "type" with
      | some t => if executorTypeNotRay t = true then setKey e "type" (.str "ray") else e
      | none => e) = e := by
    cases hlt : lookupKey e "type" with
    | none => rfl
    | some t0 => simp [hty t0 hlt]
  rw [htypeid, hsa]
  exact setKey_lookup_self _ _ _ he

/-- Copying one absent-target field into the executor keeps it normalized. -/
theorem executorOK_copyField (e : Fields) (ov : Option Value) (k : String)
    (hk1 : k ≠ "type") (hk2 : k ≠ "search_alg") (hok : ExecutorOK e) :
    ExecutorOK (match ov with
      | some w => if containsKey e k = true then e else setKey e k w
      | none => e) := by
  cases ov with
  | none => exact hok
  | some w =>
    by_cases hc : containsKey e k = true
    · simp only [if_pos hc]
      exact hok
    · simp only [if_neg hc]
      exact ⟨fun t ht => hok.1 t (by rwa [lookupKey_setKey_ne e k "type" w (Ne.symm hk1)] at ht),
        by rw [lookupKey_setKey_ne e k "search_alg" w (Ne.symm hk2)]; exact hok.2⟩

/-- What the sampler block establishes, and its frame. -/
theorem hyperoptSamplerStep_out (h h3 : Fields)
    (hs : hyperoptSamplerStep h = some h3)
    (he : ∃ e, lookupKey h "executor" = some (.obj e) ∧ ExecutorOK e) :
    (∃ e, lookupKey h3 "executor" = some (.obj e) ∧ ExecutorOK e) ∧
    lookupKey h3 "sampler" = none ∧
    ∀ k, k ≠ "executor" → k ≠ "search_alg" → k ≠ "sampler" →
      lookupKey h3 k = lookupKey h k := by
  rcases he with ⟨e, he, hty, hesa⟩
  unfold hyperoptSamplerStep at hs
  cases hl : lookupKey h "sampler" with
  | none =>
    rw [hl] at hs
    cases hs
    exact ⟨⟨e, he, hty, hesa⟩, hl, fun k _ _ _ => rfl⟩
  | some sv =>
    rw [hl] at hs
    cases sv with
    | obj s =>
      simp only [asObj, Option.pure_def, Option.bind_eq_bind, Option.some_bind,
        Option.some.injEq] at hs
      -- the (possibly) search_alg-extended top level
      generalize hh1 : (match lookupKey s "search_alg" with
        | some sa => if containsKey h "search_alg" = true then h else setKey h "search_alg" sa
        | none => h) = h1 at hs
      have hh1frame : ∀ k, k ≠ "search_alg" → lookupKey h1 k = lookupKey h k := by
        intro k hk
        cases hls : lookupKey s "search_alg" with
        | none => simp only [hls] at hh1; rw [← hh1]
        | some sa =>
          simp only [hls] at hh1
          by_cases hc : containsKey h "search_alg" = true
          · rw [if_pos hc] at hh1; rw [← hh1]
          · rw [if_neg hc] at hh1; rw [← hh1, lookupKey_setKey_ne h "search_alg" k sa hk]
      have hh1exec : lookupKey h1 "executor" = some (Value.obj e) := by
        rw [hh1frame "executor" (by decide)]
        exact he
      rw [hh1exec] at hs
      simp only [asObj, Option.some_bind, Option.some.injEq] at hs
      have hN := executorOK_copyField e (lookupKey s "num_samples") "num_samples"
        (by decide) (by decide) ⟨hty, hesa⟩
      have hS := executorOK_copyField _ (lookupKey s "scheduler") "scheduler"
        (by decide) (by decide) hN
      rw [← hs]
      refine ⟨⟨_, ?_, hS⟩, lookupKey_eraseAll_self _ _, ?_⟩
      · rw [lookupKey_eraseAll_ne _ _ _ (by decide), lookupKey_setKey_self]
      · intro k hk1 hk2 hk3
        rw [lookupKey_eraseAll_ne _ _ _ hk3, lookupKey_setKey_ne h1 "executor" k _ hk1]
        exact hh1frame k hk2
    | null => simp [asObj] at hs
    | bool _ => simp [asObj] at hs
    | int _ => simp [asObj] at hs
    | float _ => simp [asObj] at hs
    | str _ => simp [asObj] at hs
    | list _ => simp [asObj] at hs

/-- A hyperopt mapping with no sampler section is a fixed point of the
sampler block. -/
theorem hyperoptSamplerStep_fixed (h : Fields)
    (hl : lookupKey h "sampler" = none) : hyperoptSamplerStep h = some h := by
  unfold hyperoptSamplerStep
  rw [hl]
  rfl

/-- What the default-injection block establishes, and its frame. -/
theorem hyperoptSearchAlgDefaultStep_out (h : Fields) :
    containsKey (hyperoptSearchAlgDefaultStep h) "search_alg" = true ∧
    ∀ k, k ≠ "search_alg" →
      lookupKey (hyperoptSearchAlgDefaultStep h) k = lookupKey h k := by
  unfold hyperoptSearchAlgDefaultStep
  by_cases hc : containsKey h "search_alg" = true
  · rw [if_pos hc]
    exact ⟨hc, fun _ _ => rfl⟩
  · rw [if_neg hc]
    exact ⟨containsKey_setKey_self _ _ _, fun k hk => lookupKey_setKey_ne _ _ _ _ hk⟩

/-- A hyperopt mapping with a top-level `search_alg` is a fixed point of the
default-injection block. -/
theorem hyperoptSearchAlgDefaultStep_fixed (h : Fields)
    (hc : containsKey h "search_alg" = true) : hyperoptSearchAlgDefaultStep h = h := by
  unfold hyperoptSearchAlgDefaultStep
  rw [if_pos hc]

/-- Any successful run of the hyperopt migrator yields a mapping of the
`HyperoptFixed` shape. -/
theorem upgrade_hyperopt_out (hv hv' : Value) (h : _upgrade_hyperopt hv = some hv') :
    ∃ hf, hv' = .obj hf ∧ HyperoptFixed hf := by
  cases hv with
  | obj h0 =>
    unfold _upgrade_hyperopt at h
    simp only [asObj, Option.pure_def, Option.bind_eq_bind, Option.some_bind] at h
    cases h1s : hyperoptParametersStep h0 with
    | none => rw [h1s] at h; simp at h
    | some h1 =>
      rw [h1s] at h
      simp only [Option.some_bind] at h
      cases h2s : hyperoptExecutorStep h1 with
      | none => rw [h2s] at h; simp at h
      | some h2 =>
        rw [h2s] at h
        simp only [Option.some_bind] at h
        cases h3s : hyperoptSamplerStep h2 with
        | none => rw [h3s] at h; simp at h
        | some h3 =>
          rw [h3s] at h
          simp only [Option.some_bind, Option.some.injEq] at h
          obtain ⟨p11, p12⟩ := hyperoptParametersStep_out h0 h1 h1s
          obtain ⟨p21, p22⟩ := hyperoptExecutorStep_out h1 h2 h2s
          obtain ⟨p31, p32, p33⟩ := hyperoptSamplerStep_out h2 h3 h3s p21
          obtain ⟨p41, p42⟩ := hyperoptSearchAlgDefaultStep_out h3
          refine ⟨hyperoptSearchAlgDefaultStep h3, h.symm, ?_, ?_, ?_, p41⟩
          · intro pv hpv
            rw [p42 "parameters" (by decide), p33 "parameters" (by decide) (by decide)
              (by decide), p22 "parameters" (by decide) (by decide)] at hpv
            exact p11 pv hpv
          · rcases p31 with ⟨e, he, heok⟩
            exact ⟨e, by rw [p42 "executor" (by decide)]; exact he, heok⟩
          · rw [p42 "sampler" (by decide)]
            exact p32
  | null => simp [_upgrade_hyperopt, asObj] at h
  | bool _ => simp [_upgrade_hyperopt, asObj] at h
  | int _ => simp [_upgrade_hyperopt, asObj] at h
  | float _ => simp [_upgrade_hyperopt, asObj] at h
  | str _ => simp [_upgrade_hyperopt, asObj] at h
  | list _ => simp [_upgrade_hyperopt, asObj] at h

/-- A hyperopt mapping of the `HyperoptFixed` shape is a fixed point of the
hyperopt migrator. -/
theorem upgrade_hyperopt_fixed (hf : Fields) (hx : HyperoptFixed hf) :
    _upgrade_hyperopt (.obj hf) = some (.obj hf) := by
  obtain ⟨hp, he, hsam, hsa⟩ := hx
  unfold _upgrade_hyperopt
  simp only [asObj, Option.pure_def, Option.bind_eq_bind, Option.some_bind]
  rw [hyperoptParametersStep_fixed hf hp]
  simp only [Option.some_bind]
  rw [hyperoptExecutorStep_fixed hf he]
  simp only [Option.some_bind]
  rw [hyperoptSamplerStep_fixed hf hsam]
  simp only [Option.some_bind]
  rw [hyperoptSearchAlgDefaultStep_fixed hf hsa]

/-- The hyperopt migrator is idempotent. -/
theorem upgrade_hyperopt_idem (hv hv' : Value) (h : _upgrade_hyperopt hv = some hv') :
    _upgrade_hyperopt hv' = some hv' := by
  rcases upgrade_hyperopt_out hv hv' h with ⟨hf, rfl, hx⟩
  exact upgrade_hyperopt_fixed hf hx

/-! ## Preprocessing-defaults migrator -/

/-- Every successful defaults-installation step only writes the `defaults`
key. -/
theorem applyDefaultForType_shape (c c' : Fields) (x : String × Value)
    (hs : applyDefaultForType c x = some c') :
    ∃ d2, c' = setKey c "defaults" d2 := by
  unfold applyDefaultForType at hs
  cases hdv : lookupKey c "defaults" with
  | none => rw [hdv] at hs; simp at hs
  | some dv =>
    rw [hdv] at hs
    simp only [Option.pure_def, Option.bind_eq_bind, Option.some_bind] at hs
    cases hd2 : defaultsAfterInstall dv x with
    | none => rw [hd2] at hs; simp at hs
    | some d2 =>
      rw [hd2] at hs
      simp only [Option.some_bind, Option.some.injEq] at hs
      exact ⟨d2, hs.symm⟩

/-- The installation fold only writes the `defaults` key. -/
theorem foldlM_applyDefault_frame (l : List (String × Value)) (c c' : Fields)
    (hs : l.foldlM applyDefaultForType c = some c') :
    ∀ k, k ≠ "defaults" → lookupKey c' k = lookupKey c k := by
  induction l generalizing c with
  | nil =>
    simp only [List.foldlM_nil, Option.pure_def, Option.some.injEq] at hs
    subst hs
    exact fun k _ => rfl
  | cons x xs ih =>
    rw [List.foldlM_cons] at hs
    cases h1 : applyDefaultForType c x with
    | none => rw [h1] at hs; simp at hs
    | some c1 =>
      rw [h1] at hs
      simp only [Option.pure_def, Option.bind_eq_bind, Option.some_bind] at hs
      intro k hk
      rcases applyDefaultForType_shape c c1 x h1 with ⟨d', rfl⟩
      rw [ih _ hs k hk, lookupKey_setKey_ne _ _ _ _ hk]

/-- The installation fold keeps the `defaults` key present. -/
theorem foldlM_applyDefault_defaults (l : List (String × Value)) (c c' : Fields)
    (hs : l.foldlM applyDefaultForType c = some c')
    (hd : containsKey c "defaults" = true) :
    containsKey c' "defaults" = true := by
  induction l generalizing c with
  | nil =>
    simp only [List.foldlM_nil, Option.pure_def, Option.some.injEq] at hs
    subst hs
    exact hd
  | cons x xs ih =>
    rw [List.foldlM_cons] at hs
    cases h1 : applyDefaultForType c x with
    | none => rw [h1] at hs; simp at hs
    | some c1 =>
      rw [h1] at hs
      simp only [Option.pure_def, Option.bind_eq_bind, Option.some_bind] at hs
      rcases applyDefaultForType_shape c c1 x h1 with ⟨d', rfl⟩
      exact ih _ hs (containsKey_setKey_self _ _ _)

/-- The collection fold never adds keys to the preprocessing section and, for
a non-feature-type key, never removes it. -/
theorem collect_fold_other (R : List String) (l : List String) (acc : Fields × Fields)
    (k : String) (hk : R.contains k = false) :
    lookupKey (l.foldl (collectTypeSpecific R) acc).2 k = lookupKey acc.2 k := by
  induction l generalizing acc with
  | nil => rfl
  | cons x xs ih =>
    rw [List.foldl_cons]
    rw [ih]
    unfold collectTypeSpecific
    by_cases hx : R.contains x = true
    · rw [if_pos hx]
      cases hlx : lookupKey acc.2 x with
      | none => rfl
      | some v =>
        have hxk : k ≠ x := fun he => by rw [he] at hk; rw [hk] at hx; cases hx
        exact lookupKey_eraseAll_ne _ _ _ hxk
    · rw [if_neg hx]

/-- After the collection fold every scheduled feature-type key is gone from
the preprocessing section. -/
theorem collect_fold_registry_none (R : List String) (l : List String)
    (acc : Fields × Fields) (k : String) (hkR : R.contains k = true)
    (hsch : k ∈ l ∨ lookupKey acc.2 k = none) :
    lookupKey (l.foldl (collectTypeSpecific R) acc).2 k = none := by
  induction l generalizing acc with
  | nil =>
    rcases hsch with h | h
    · cases h
    · exact h
  | cons x xs ih =>
    rw [List.foldl_cons]
    apply ih
    rcases hsch with h | h
    · rcases List.mem_cons.mp h with rfl | hmem
      · right
        unfold collectTypeSpecific
        rw [if_pos hkR]
        cases hlx : lookupKey acc.2 k with
        | none => exact hlx
        | some v => exact lookupKey_eraseAll_self _ _
      · left; exact hmem
    · right
      unfold collectTypeSpecific
      by_cases hx : R.contains x = true
      · rw [if_pos hx]
        cases hlx : lookupKey acc.2 x with
        | none => exact h
        | some v =>
          by_cases hkx : k = x
          · rw [hkx]; exact lookupKey_eraseAll_self _ _
          · rw [lookupKey_eraseAll_ne _ _ _ hkx]; exact h
      · rw [if_neg hx]; exact h

/-- The collection fold does nothing when no scheduled key names a feature
type. -/
theorem collect_fold_id (R : List String) (l : List String) (acc : Fields × Fields)
    (hl : ∀ x ∈ l, R.contains x = false) :
    l.foldl (collectTypeSpecific R) acc = acc := by
  induction l generalizing acc with
  | nil => rfl
  | cons x xs ih =>
    rw [List.foldl_cons]
    unfold collectTypeSpecific
    rw [if_neg (by rw [hl x (List.mem_cons_self x xs)]; simp)]
    exact ih _ (fun y hy => hl y (by simp [hy]))

/-- Any successful run of the defaults migrator leaves a `defaults` key, a
feature-type-free (and non-empty, when still present) preprocessing section,
and touches nothing else at the root. -/
theorem upgrade_preprocessing_defaults_out (R : List String) (c c' : Fields)
    (hs : _upgrade_preprocessing_defaults R c = some c') :
    (∀ pv', lookupKey c' "preprocessing" = some pv' →
      ∃ p', pv' = .obj p' ∧ p'.isEmpty = false ∧
        ∀ k, R.contains k = true → lookupKey p' k = none) ∧
    containsKey c' "defaults" = true ∧
    (∀ k, k ≠ "preprocessing" → k ≠ "defaults" → lookupKey c' k = lookupKey c k) ∧
    (∀ p, lookupKey c "preprocessing" = some (.obj p) →
      ∀ pv', lookupKey c' "preprocessing" = some pv' →
        ∃ p', pv' = .obj p' ∧ ∀ k, R.contains k = false →
          lookupKey p' k = lookupKey p k) := by
  unfold _upgrade_preprocessing_defaults at hs
  cases hpv : lookupKey c "preprocessing" with
  | none => rw [hpv] at hs; simp at hs
  | some pv =>
    rw [hpv] at hs
    cases pv with
    | obj p =>
      simp only [asObj, Option.pure_def, Option.bind_eq_bind, Option.some_bind] at hs
      have hframe := foldlM_applyDefault_frame _ _ _ hs
      have hpre' : lookupKey c' "preprocessing"
          = lookupKey (if (((keysOf p).foldl (collectTypeSpecific R) ([], p)).2).isEmpty = true
              then eraseAll c "preprocessing"
              else setKey c "preprocessing"
                (.obj ((keysOf p).foldl (collectTypeSpecific R) ([], p)).2))
            "preprocessing" := by
        rw [hframe "preprocessing" (by decide)]
        by_cases hcd : containsKey (if (((keysOf p).foldl (collectTypeSpecific R)
            ([], p)).2).isEmpty = true
            then eraseAll c "preprocessing"
            else setKey c "preprocessing"
              (.obj ((keysOf p).foldl (collectTypeSpecific R) ([], p)).2)) "defaults" = true
        · rw [if_pos hcd]
        · rw [if_neg hcd, lookupKey_setKey_ne _ _ _ _ (by decide)]
      have hregnone : ∀ k, R.contains k = true →
          lookupKey ((keysOf p).foldl (collectTypeSpecific R) ([], p)).2 k = none := by
        intro k hk
        apply collect_fold_registry_none R (keysOf p) ([], p) k hk
        cases hlk : lookupKey p k with
        | none => right; rfl
        | some v =>
          left
          exact (lookupKey_isSome_iff_mem_keysOf p k).mp (by rw [hlk]; rfl)
      refine ⟨?_, ?_, ?_, ?_⟩
      · intro pv' hpv'
        rw [hpre'] at hpv'
        by_cases hemp : (((keysOf p).foldl (collectTypeSpecific R) ([], p)).2).isEmpty = true
        · rw [if_pos hemp, lookupKey_eraseAll_self] at hpv'
          cases hpv'
        · rw [if_neg hemp, lookupKey_setKey_self] at hpv'
          cases hpv'
          exact ⟨_, rfl, Bool.eq_false_iff.mpr hemp, hregnone⟩
      · apply foldlM_applyDefault_defaults _ _ _ hs
        by_cases hcd : containsKey (if (((keysOf p).foldl (collectTypeSpecific R)
            ([], p)).2).isEmpty = true
            then eraseAll c "preprocessing"
            else setKey c "preprocessing"
              (.obj ((keysOf p).foldl (collectTypeSpecific R) ([], p)).2)) "defaults" = true
        · rw [if_pos hcd]; exact hcd
        · rw [if_neg hcd]; exact containsKey_setKey_self _ _ _
      · intro k hk1 hk2
        rw [hframe k hk2]
        have hstep1 : ∀ m : Fields, lookupKey (if containsKey m "defaults" = true then m
            else setKey m "defaults" (.obj [])) k = lookupKey m k := by
          intro m
          by_cases hcd : containsKey m "defaults" = true
          · rw [if_pos hcd]
          · rw [if_neg hcd, lookupKey_setKey_ne _ _ _ _ hk2]
        rw [hstep1]
        by_cases hemp : (((keysOf p).foldl (collectTypeSpecific R) ([], p)).2).isEmpty = true
        · rw [if_pos hemp, lookupKey_eraseAll_ne _ _ _ hk1]
        · rw [if_neg hemp, lookupKey_setKey_ne _ _ _ _ hk1]
      · intro p0 hp0 pv' hpv'
        have hpp : p = p0 := Value.obj.inj (Option.some.inj hp0)
        subst hpp
        rw [hpre'] at hpv'
        by_cases hemp : (((keysOf p).foldl (collectTypeSpecific R) ([], p)).2).isEmpty = true
        · rw [if_pos hemp, lookupKey_eraseAll_self] at hpv'
          cases hpv'
        · rw [if_neg hemp, lookupKey_setKey_self] at hpv'
          cases hpv'
          refine ⟨_, rfl, fun k hk => ?_⟩
          exact collect_fold_other R (keysOf p) ([], p) k hk
    | null => simp [asObj] at hs
    | bool _ => simp [asObj] at hs
    | int _ => simp [asObj] at hs
    | float _ => simp [asObj] at hs
    | str _ => simp [asObj] at hs
    | list _ => simp [asObj] at hs

/-- A document whose preprocessing section is a non-empty mapping free of
feature-type keys, with a `defaults` key present, is a fixed point of the
defaults migrator. -/
theorem upgrade_preprocessing_defaults_fixed (R : List String) (c p : Fields)
    (hp : lookupKey c "preprocessing" = some (.obj p))
    (hne : p.isEmpty = false)
    (hreg : ∀ k, R.contains k = true → lookupKey p k = none)
    (hd : containsKey c "defaults" = true) :
    _upgrade_preprocessing_defaults R c = some c := by
  unfold _upgrade_preprocessing_defaults
  rw [hp]
  simp only [asObj, Option.pure_def, Option.bind_eq_bind, Option.some_bind]
  rw [collect_fold_id R (keysOf p) ([], p) ?hcl]
  case hcl =>
    intro x hx
    cases hxr : R.contains x with
    | false => rfl
    | true =>
      have h1 : lookupKey p x = none := hreg x hxr
      have h2 : (lookupKey p x).isSome :=
        (lookupKey_isSome_iff_mem_keysOf p x).mpr hx
      rw [h1] at h2
      cases h2
  have hc1 : (if List.isEmpty (([], p) : Fields × Fields).2 = true
      then eraseAll c "preprocessing"
      else setKey c "preprocessing" (Value.obj (([], p) : Fields × Fields).2)) = c := by
    rw [if_neg (by simp [hne])]
    exact setKey_lookup_self _ _ _ hp
  rw [hc1, if_pos hd]
  rfl

/-- The defaults migrator is idempotent whenever its second application is
defined — that is, whenever the first application left a preprocessing
section in the document. -/
theorem upgrade_preprocessing_defaults_idem (R : List String) (c c' : Fields)
    (hs : _upgrade_preprocessing_defaults R c = some c')
    (hpre : containsKey c' "preprocessing" = true) :
    _upgrade_preprocessing_defaults R c' = some c' := by
  obtain ⟨h1, h2, _, _⟩ := upgrade_preprocessing_defaults_out R c c' hs
  unfold containsKey at hpre
  cases hl : lookupKey c' "preprocessing" with
  | none => rw [hl] at hpre; cases hpre
  | some pv' =>
    rcases h1 pv' hl with ⟨p', rfl, hne, hreg⟩
    exact upgrade_preprocessing_defaults_fixed R c' p' hl hne hreg h2

/-! ## Driver stages -/

/-- Any successful run of the split migrator leaves no legacy split key. -/
theorem upgrade_preprocessing_split_out (pv pv' : Value)
    (h : _upgrade_preprocessing_split pv = some pv') :
    ∃ p', pv' = .obj p' ∧ lookupKey p' "force_split" = none ∧
      lookupKey p' "split_probabilities" = none ∧ lookupKey p' "stratify" = none := by
  cases pv with
  | obj m =>
    unfold _upgrade_preprocessing_split at h
    simp only [asObj, popKey, Option.pure_def, Option.bind_eq_bind, Option.some_bind,
      Option.some.injEq] at h
    have hfs : lookupKey (eraseAll (eraseAll (eraseAll m "force_split")
        "split_probabilities") "stratify") "force_split" = none := by
      rw [lookupKey_eraseAll_ne _ _ _ (by decide), lookupKey_eraseAll_ne _ _ _ (by decide),
        lookupKey_eraseAll_self]
    have hsp : lookupKey (eraseAll (eraseAll (eraseAll m "force_split")
        "split_probabilities") "stratify") "split_probabilities" = none := by
      rw [lookupKey_eraseAll_ne _ _ _ (by decide), lookupKey_eraseAll_self]
    have hst : lookupKey (eraseAll (eraseAll (eraseAll m "force_split")
        "split_probabilities") "stratify") "stratify" = none := by
      rw [lookupKey_eraseAll_self]
    exact ⟨_, h.symm,
      lookup_split_write_none _ _ _ (by decide) hfs,
      lookup_split_write_none _ _ _ (by decide) hsp,
      lookup_split_write_none _ _ _ (by decide) hst⟩
  | null => simp [_upgrade_preprocessing_split, asObj] at h
  | bool _ => simp [_upgrade_preprocessing_split, asObj] at h
  | int _ => simp [_upgrade_preprocessing_split, asObj] at h
  | float _ => simp [_upgrade_preprocessing_split, asObj] at h
  | str _ => simp [_upgrade_preprocessing_split, asObj] at h
  | list _ => simp [_upgrade_preprocessing_split, asObj] at h

/-- Any successful run of the trainer migrator leaves no `eval_batch_size`
comparing equal to `0`. -/
theorem upgrade_trainer_out (tv tv' : Value) (h : _upgrade_trainer tv = some tv') :
    ∃ t', tv' = .obj t' ∧
      ∀ v, lookupKey t' "eval_batch_size" = some v → isPyZero v = false := by
  cases tv with
  | obj m =>
    unfold _upgrade_trainer at h
    simp only [asObj, Option.pure_def, Option.bind_eq_bind, Option.some_bind] at h
    cases hl : lookupKey m "eval_batch_size" with
    | none =>
      simp only [hl] at h
      cases h
      exact ⟨m, rfl, fun v hv => by rw [hv] at hl; cases hl⟩
    | some v =>
      simp only [hl] at h
      by_cases hz : isPyZero v = true
      · rw [if_pos hz] at h
        cases h
        refine ⟨_, rfl, fun w hw => ?_⟩
        rw [lookupKey_setKey_self] at hw
        cases hw
        rfl
      · rw [if_neg hz] at h
        cases h
        exact ⟨m, rfl, fun w hw => by
          rw [hw] at hl; cases hl; exact Bool.eq_false_iff.mpr hz⟩
  | null => simp [_upgrade_trainer, asObj] at h
  | bool _ => simp [_upgrade_trainer, asObj] at h
  | int _ => simp [_upgrade_trainer, asObj] at h
  | float _ => simp [_upgrade_trainer, asObj] at h
  | str _ => simp [_upgrade_trainer, asObj] at h
  | list _ => simp [_upgrade_trainer, asObj] at h

/-- Every record produced by mapping `_upgrade_feature` is a fixed point of
`_upgrade_feature`. -/
theorem mapM_upgrade_feature_out (xs ys : List Value)
    (h : xs.mapM _upgrade_feature = some ys) :
    ∀ y ∈ ys, _upgrade_feature y = some y := by
  induction xs generalizing ys with
  | nil =>
    simp only [List.mapM_nil, Option.pure_def, Option.some.injEq] at h
    subst h
    intro y hy
    cases hy
  | cons x xs ih =>
    rw [List.mapM_cons] at h
    cases h1 : _upgrade_feature x with
    | none => rw [h1] at h; simp at h
    | some y1 =>
      rw [h1] at h
      simp only [Option.pure_def, Option.bind_eq_bind, Option.some_bind] at h
      cases h2 : xs.mapM _upgrade_feature with
      | none => rw [h2] at h; simp at h
      | some ys1 =>
        rw [h2] at h
        simp only [Option.some_bind, Option.some.injEq] at h
        subst h
        intro y hy
        rcases List.mem_cons.mp hy with rfl | hy1
        · exact upgrade_feature_idem x y h1
        · exact ih ys1 h2 y hy1

/-- Mapping `_upgrade_feature` over fixed points changes nothing. -/
theorem mapM_upgrade_feature_fixed (xs : List Value)
    (h : ∀ x ∈ xs, _upgrade_feature x = some x) :
    xs.mapM _upgrade_feature = some xs := by
  induction xs with
  | nil => rfl
  | cons x rest ih =>
    rw [List.mapM_cons, h x (by simp), ih (fun y hy => h y (by simp [hy]))]
    rfl

/-- What the feature-list stage establishes, and its frame. -/
theorem upgradeFeatureList_out (c c1 : Fields) (key : String)
    (h : upgradeFeatureList c key = some c1) :
    FeatureListFixed c1 key ∧ ∀ k, k ≠ key → lookupKey c1 k = lookupKey c k := by
  unfold upgradeFeatureList at h
  cases hl : lookupKey c key with
  | none =>
    rw [hl] at h
    cases h
    exact ⟨fun v hv => absurd (hv ▸ hl) (by simp), fun k _ => rfl⟩
  | some v =>
    rw [hl] at h
    cases v with
    | list xs =>
      simp only [asList, Option.pure_def, Option.bind_eq_bind, Option.some_bind] at h
      cases hm : xs.mapM _upgrade_feature with
      | none => rw [hm] at h; simp at h
      | some ys =>
        rw [hm] at h
        simp only [Option.some_bind, Option.some.injEq] at h
        subst h
        constructor
        · intro v hv
          rw [lookupKey_setKey_self] at hv
          cases hv
          exact ⟨ys, rfl, mapM_upgrade_feature_out xs ys hm⟩
        · intro k hk
          exact lookupKey_setKey_ne _ _ _ _ hk
    | null => simp [asList] at h
    | bool _ => simp [asList] at h
    | int _ => simp [asList] at h
    | float _ => simp [asList] at h
    | str _ => simp [asList] at h
    | obj _ => simp [asList] at h

/-- A document whose feature sequence holds only fixed points is a fixed
point of the feature-list stage. -/
theorem upgradeFeatureList_fixed (c : Fields) (key : String)
    (h : FeatureListFixed c key) : upgradeFeatureList c key = some c := by
  unfold upgradeFeatureList
  cases hl : lookupKey c key with
  | none => rfl
  | some v =>
    rcases h v hl with ⟨xs, rfl, hxs⟩
    simp only [asList, Option.pure_def, Option.bind_eq_bind, Option.some_bind]
    rw [mapM_upgrade_feature_fixed xs hxs]
    simp only [Option.some_bind, Option.some.injEq]
    exact setKey_lookup_self _ _ _ hl

/-- What the `training`-rename stage establishes, and its frame. -/
theorem renameTrainingSection_out (c : Fields) :
    lookupKey (renameTrainingSection c) "training" = none ∧
    ∀ k, k ≠ "training" → k ≠ "trainer" →
      lookupKey (renameTrainingSection c) k = lookupKey c k := by
  unfold renameTrainingSection
  cases hl : lookupKey c "training" with
  | none => exact ⟨hl, fun _ _ _ => rfl⟩
  | some tv =>
    exact ⟨lookupKey_eraseAll_self _ _, fun k hk1 hk2 => by
      rw [lookupKey_eraseAll_ne _ _ _ hk1, lookupKey_setKey_ne _ _ _ _ hk2]⟩

/-- A document with no `training` key is a fixed point of the rename stage. -/
theorem renameTrainingSection_fixed (c : Fields)
    (h : lookupKey c "training" = none) : renameTrainingSection c = c := by
  unfold renameTrainingSection
  rw [h]

/-- What the hyperopt stage establishes, and its frame. -/
theorem driverHyperoptStage_out (c c1 : Fields) (h : driverHyperoptStage c = some c1) :
    HyperoptSectionFixed c1 ∧ ∀ k, k ≠ "hyperopt" → lookupKey c1 k = lookupKey c k := by
  unfold driverHyperoptStage at h
  cases hl : lookupKey c "hyperopt" with
  | none =>
    rw [hl] at h
    cases h
    exact ⟨fun hv hhv => absurd (hhv ▸ hl) (by simp), fun k _ => rfl⟩
  | some hv =>
    simp only [hl, Option.pure_def, Option.bind_eq_bind] at h
    cases hm : _upgrade_hyperopt hv with
    | none => rw [hm] at h; simp at h
    | some hv' =>
      rw [hm] at h
      simp only [Option.some_bind, Option.some.injEq] at h
      subst h
      constructor
      · intro hv0 hhv0
        rw [lookupKey_setKey_self] at hhv0
        cases hhv0
        exact upgrade_hyperopt_out hv hv' hm
      · intro k hk
        exact lookupKey_setKey_ne _ _ _ _ hk

/-- A document whose hyperopt section is fixed is a fixed point of the
hyperopt stage. -/
theorem driverHyperoptStage_fixed (c : Fields) (h : HyperoptSectionFixed c) :
    driverHyperoptStage c = some c := by
  unfold driverHyperoptStage
  cases hl : lookupKey c "hyperopt" with
  | none => rfl
  | some hv =>
    rcases h hv hl with ⟨hf, rfl, hx⟩
    simp only [upgrade_hyperopt_fixed hf hx, Option.pure_def, Option.bind_eq_bind,
      Option.some_bind, Option.some.injEq]
    exact setKey_lookup_self _ _ _ hl

/-- What the trainer stage establishes, and its frame. -/
theorem driverTrainerStage_out (c c1 : Fields) (h : driverTrainerStage c = some c1) :
    TrainerSectionFixed c1 ∧ ∀ k, k ≠ "trainer" → lookupKey c1 k = lookupKey c k := by
  unfold driverTrainerStage at h
  cases hl : lookupKey c "trainer" with
  | none =>
    rw [hl] at h
    cases h
    exact ⟨fun tv htv => absurd (htv ▸ hl) (by simp), fun k _ => rfl⟩
  | some tv =>
    simp only [hl, Option.pure_def, Option.bind_eq_bind] at h
    cases hm : _upgrade_trainer tv with
    | none => rw [hm] at h; simp at h
    | some tv' =>
      rw [hm] at h
      simp only [Option.some_bind, Option.some.injEq] at h
      subst h
      constructor
      · intro tv0 htv0
        rw [lookupKey_setKey_self] at htv0
        cases htv0
        exact upgrade_trainer_out tv tv' hm
      · intro k hk
        exact lookupKey_setKey_ne _ _ _ _ hk

/-- A document whose trainer section is fixed is a fixed point of the trainer
stage. -/
theorem driverTrainerStage_fixed (c : Fields) (h : TrainerSectionFixed c) :
    driverTrainerStage c = some c := by
  unfold driverTrainerStage
  cases hl : lookupKey c "trainer" with
  | none => rfl
  | some tv =>
    rcases h tv hl with ⟨t, rfl, hx⟩
    simp only [upgrade_trainer_of_fixed t hx, Option.pure_def, Option.bind_eq_bind,
      Option.some_bind, Option.some.injEq]
    exact setKey_lookup_self _ _ _ hl

/-- What the preprocessing stage establishes, and its frame. -/
theorem driverPreprocessingStage_out (R : List String) (c c1 : Fields)
    (h : driverPreprocessingStage R c = some c1) :
    PreprocessingSectionFixed R c1 ∧
    ∀ k, k ≠ "preprocessing" → k ≠ "defaults" → lookupKey c1 k = lookupKey c k := by
  unfold driverPreprocessingStage at h
  cases hl : lookupKey c "preprocessing" with
  | none =>
    simp only [hl, Option.pure_def, Option.some.injEq] at h
    subst h
    exact ⟨fun pv hpv => absurd (hpv ▸ hl) (by simp), fun k _ _ => rfl⟩
  | some pv =>
    simp only [hl, Option.pure_def, Option.bind_eq_bind] at h
    cases hsp : _upgrade_preprocessing_split pv with
    | none => rw [hsp] at h; simp at h
    | some pv1 =>
      rw [hsp] at h
      simp only [Option.some_bind] at h
      obtain ⟨p1, rfl, hfs1, hpr1, hstr1⟩ := upgrade_preprocessing_split_out pv pv1 hsp
      obtain ⟨d1, d2, d3, d4⟩ := upgrade_preprocessing_defaults_out R _ _ h
      constructor
      · intro pv' hpv'
        rcases d1 pv' hpv' with ⟨p', rfl, hne, hreg⟩
        rcases d4 p1 (lookupKey_setKey_self _ _ _) _ hpv' with ⟨p'', heq, hpres⟩
        have hpp : p' = p'' := Value.obj.inj heq
        subst hpp
        have hleg : ∀ k, k = "force_split" ∨ k = "split_probabilities" ∨ k = "stratify" →
            lookupKey p' k = none := by
          intro k hk
          by_cases hkR : R.contains k = true
          · exact hreg k hkR
          · rw [hpres k (Bool.eq_false_iff.mpr hkR)]
            rcases hk with rfl | rfl | rfl
            · exact hfs1
            · exact hpr1
            · exact hstr1
        exact ⟨p', rfl, hne, hreg, hleg _ (Or.inl rfl), hleg _ (Or.inr (Or.inl rfl)),
          hleg _ (Or.inr (Or.inr rfl)), d2⟩
      · intro k hk1 hk2
        rw [d3 k hk1 hk2, lookupKey_setKey_ne _ _ _ _ hk1]

/-- A document whose preprocessing section is fixed is a fixed point of the
preprocessing stage. -/
theorem driverPreprocessingStage_fixed (R : List String) (c : Fields)
    (h : PreprocessingSectionFixed R c) : driverPreprocessingStage R c = some c := by
  unfold driverPreprocessingStage
  cases hl : lookupKey c "preprocessing" with
  | none => rfl
  | some pv =>
    rcases h pv hl with ⟨p, rfl, hne, hreg, hfs, hpr, hstr, hd⟩
    simp only [split_noLegacy p hfs hpr hstr, Option.pure_def, Option.bind_eq_bind,
      Option.some_bind]
    rw [setKey_lookup_self _ _ _ hl]
    exact upgrade_preprocessing_defaults_fixed R c p hl hne hreg hd

/-- Any successful run of the whole migration pass yields a document of the
`DriverFixed` shape. -/
theorem upgrade_deprecated_fields_out (R : List String) (cv cv' : Value)
    (h : upgrade_deprecated_fields R cv = some cv') :
    ∃ c', cv' = .obj c' ∧ DriverFixed R c' := by
  cases cv with
  | obj c0 =>
    unfold upgrade_deprecated_fields at h
    simp only [asObj, Option.pure_def, Option.bind_eq_bind, Option.some_bind] at h
    obtain ⟨hrt, hrtf⟩ := renameTrainingSection_out c0
    cases h1 : upgradeFeatureList (renameTrainingSection c0) "input_features" with
    | none => rw [h1] at h; simp at h
    | some c1 =>
      rw [h1] at h
      simp only [Option.some_bind] at h
      obtain ⟨hI, hIf⟩ := upgradeFeatureList_out _ _ _ h1
      cases h2 : upgradeFeatureList c1 "output_features" with
      | none => rw [h2] at h; simp at h
      | some c2 =>
        rw [h2] at h
        simp only [Option.some_bind] at h
        obtain ⟨hO, hOf⟩ := upgradeFeatureList_out _ _ _ h2
        cases h3 : driverHyperoptStage c2 with
        | none => rw [h3] at h; simp at h
        | some c3 =>
          rw [h3] at h
          simp only [Option.some_bind] at h
          obtain ⟨hH, hHf⟩ := driverHyperoptStage_out _ _ h3
          cases h4 : driverTrainerStage c3 with
          | none => rw [h4] at h; simp at h
          | some c4 =>
            rw [h4] at h
            simp only [Option.some_bind] at h
            obtain ⟨hT, hTf⟩ := driverTrainerStage_out _ _ h4
            cases h5 : driverPreprocessingStage R c4 with
            | none => rw [h5] at h; simp at h
            | some c5 =>
              rw [h5] at h
              simp only [Option.some_bind, Option.some.injEq] at h
              obtain ⟨hP, hPf⟩ := driverPreprocessingStage_out R _ _ h5
              refine ⟨c5, h.symm, ?_, ?_, ?_, ?_, ?_, hP⟩
              · rw [hPf _ (by decide) (by decide), hTf _ (by decide),
                  hHf _ (by decide), hOf _ (by decide), hIf _ (by decide)]
                exact hrt
              · intro v hv
                rw [hPf _ (by decide) (by decide), hTf _ (by decide),
                  hHf _ (by decide), hOf _ (by decide)] at hv
                exact hI v hv
              · intro v hv
                rw [hPf _ (by decide) (by decide), hTf _ (by decide),
                  hHf _ (by decide)] at hv
                exact hO v hv
              · intro hv hhv
                rw [hPf _ (by decide) (by decide), hTf _ (by decide)] at hhv
                exact hH hv hhv
              · intro tv htv
                rw [hPf _ (by decide) (by decide)] at htv
                exact hT tv htv
  | null => simp [upgrade_deprecated_fields, asObj] at h
  | bool _ => simp [upgrade_deprecated_fields, asObj] at h
  | int _ => simp [upgrade_deprecated_fields, asObj] at h
  | float _ => simp [upgrade_deprecated_fields, asObj] at h
  | str _ => simp [upgrade_deprecated_fields, asObj] at h
  | list _ => simp [upgrade_deprecated_fields, asObj] at h

/-- A document of the `DriverFixed` shape is a fixed point of the whole
migration pass. -/
theorem upgrade_deprecated_fields_fixed (R : List String) (c : Fields)
    (hx : DriverFixed R c) : upgrade_deprecated_fields R (.obj c) = some (.obj c) := by
  obtain ⟨h1, h2, h3, h4, h5, h6⟩ := hx
  unfold upgrade_deprecated_fields
  simp only [asObj, Option.pure_def, Option.bind_eq_bind, Option.some_bind]
  rw [renameTrainingSection_fixed c h1, upgradeFeatureList_fixed c _ h2]
  simp only [Option.some_bind]
  rw [upgradeFeatureList_fixed c _ h3]
  simp only [Option.some_bind]
  rw [driverHyperoptStage_fixed c h4]
  simp only [Option.some_bind]
  rw [driverTrainerStage_fixed c h5]
  simp only [Option.some_bind]
  rw [driverPreprocessingStage_fixed R c h6]
  rfl

/-- The whole migration pass is idempotent on every document it accepts. -/
theorem upgrade_deprecated_fields_idem (R : List String) (cv cv' : Value)
    (h : upgrade_deprecated_fields R cv = some cv') :
    upgrade_deprecated_fields R cv' = some cv' := by
  rcases upgrade_deprecated_fields_out R cv cv' h with ⟨c', rfl, hx⟩
  exact upgrade_deprecated_fields_fixed R c' hx

/-! ## Frame properties -/

/-- A successful pass decomposes into its six stages. -/
theorem upgrade_decomp (R : List String) (c0 : Fields) (cv' : Value)
    (h : upgrade_deprecated_fields R (.obj c0) = some cv') :
    ∃ c1 c2 c3 c4 c5,
      upgradeFeatureList (renameTrainingSection c0) "input_features" = some c1 ∧
      upgradeFeatureList c1 "output_features" = some c2 ∧
      driverHyperoptStage c2 = some c3 ∧
      driverTrainerStage c3 = some c4 ∧
      driverPreprocessingStage R c4 = some c5 ∧
      cv' = .obj c5 := by
  unfold upgrade_deprecated_fields at h
  simp only [asObj, Option.pure_def, Option.bind_eq_bind, Option.some_bind] at h
  cases h1 : upgradeFeatureList (renameTrainingSection c0) "input_features" with
  | none => rw [h1] at h; simp at h
  | some c1 =>
    rw [h1] at h
    simp only [Option.some_bind] at h
    cases h2 : upgradeFeatureList c1 "output_features" with
    | none => rw [h2] at h; simp at h
    | some c2 =>
      rw [h2] at h
      simp only [Option.some_bind] at h
      cases h3 : driverHyperoptStage c2 with
      | none => rw [h3] at h; simp at h
      | some c3 =>
        rw [h3] at h
        simp only [Option.some_bind] at h
        cases h4 : driverTrainerStage c3 with
        | none => rw [h4] at h; simp at h
        | some c4 =>
          rw [h4] at h
          simp only [Option.some_bind] at h
          cases h5 : driverPreprocessingStage R c4 with
          | none => rw [h5] at h; simp at h
          | some c5 =>
            rw [h5] at h
            simp only [Option.some_bind, Option.some.injEq] at h
            exact ⟨c1, c2, c3, c4, c5, rfl, h2, h3, h4, h5, h.symm⟩

/-- Root-level frame: the pass leaves every unrecognized root key with its
value unchanged. -/
theorem upgrade_root_frame (R : List String) (m m' : Fields)
    (h : upgrade_deprecated_fields R (.obj m) = some (.obj m')) :
    ∀ k, k ∉ recognizedRootKeys → lookupKey m' k = lookupKey m k := by
  rcases upgrade_decomp R m _ h with ⟨c1, c2, c3, c4, c5, h1, h2, h3, h4, h5, hout⟩
  cases hout
  intro k hk
  simp only [recognizedRootKeys, List.mem_cons, List.not_mem_nil, or_false] at hk
  push_neg at hk
  obtain ⟨n1, n2, n3, n4, n5, n6, n7⟩ := hk
  rw [(driverPreprocessingStage_out R _ _ h5).2 k n6 n7,
    (driverTrainerStage_out _ _ h4).2 k n2,
    (driverHyperoptStage_out _ _ h3).2 k n5,
    (upgradeFeatureList_out _ _ _ h2).2 k n4,
    (upgradeFeatureList_out _ _ _ h1).2 k n3,
    (renameTrainingSection_out m).2 k n1 n2]

/-- In-section frame of the hyperopt migrator: keys other than `parameters`,
`executor`, `search_alg` and `sampler` keep their values. -/
theorem upgrade_hyperopt_section_frame (h0 hf : Fields)
    (h : _upgrade_hyperopt (.obj h0) = some (.obj hf)) :
    ∀ k, k ≠ "parameters" → k ≠ "executor" → k ≠ "search_alg" → k ≠ "sampler" →
      lookupKey hf k = lookupKey h0 k := by
  unfold _upgrade_hyperopt at h
  simp only [asObj, Option.pure_def, Option.bind_eq_bind, Option.some_bind] at h
  cases h1s : hyperoptParametersStep h0 with
  | none => rw [h1s] at h; simp at h
  | some h1 =>
    rw [h1s] at h
    simp only [Option.some_bind] at h
    cases h2s : hyperoptExecutorStep h1 with
    | none => rw [h2s] at h; simp at h
    | some h2 =>
      rw [h2s] at h
      simp only [Option.some_bind] at h
      cases h3s : hyperoptSamplerStep h2 with
      | none => rw [h3s] at h; simp at h
      | some h3 =>
        rw [h3s] at h
        simp only [Option.some_bind, Option.some.injEq] at h
        intro k k1 k2 k3 k4
        have hout : hf = hyperoptSearchAlgDefaultStep h3 := (Value.obj.inj h).symm
        rw [hout, (hyperoptSearchAlgDefaultStep_out h3).2 k k3,
          (hyperoptSamplerStep_out h2 h3 h3s
            (hyperoptExecutorStep_out h1 h2 h2s).1).2.2 k k2 k3 k4,
          (hyperoptExecutorStep_out h1 h2 h2s).2 k k2 k3,
          (hyperoptParametersStep_out h0 h1 h1s).2 k k1]

/-- In-section frame of the trainer migrator: keys other than
`eval_batch_size` keep their values. -/
theorem upgrade_trainer_section_frame (t0 t' : Fields)
    (h : _upgrade_trainer (.obj t0) = some (.obj t')) :
    ∀ k, k ≠ "eval_batch_size" → lookupKey t' k = lookupKey t0 k := by
  unfold _upgrade_trainer at h
  simp only [asObj, Option.pure_def, Option.bind_eq_bind, Option.some_bind] at h
  intro k hk
  cases hl : lookupKey t0 "eval_batch_size" with
  | none =>
    simp only [hl, Option.some.injEq] at h
    rw [← Value.obj.inj h]
  | some v =>
    simp only [hl] at h
    by_cases hz : isPyZero v = true
    · rw [if_pos hz] at h
      rw [← Value.obj.inj (Option.some.inj h), lookupKey_setKey_ne _ _ _ _ hk]
    · rw [if_neg hz] at h
      rw [← Value.obj.inj (Option.some.inj h)]

/-- In-section frame of the split migrator: keys other than the three legacy
keys and `split` keep their values. -/
theorem upgrade_split_section_frame (p0 p' : Fields)
    (h : _upgrade_preprocessing_split (.obj p0) = some (.obj p')) :
    ∀ k, k ≠ "force_split" → k ≠ "split_probabilities" → k ≠ "stratify" →
      k ≠ "split" → lookupKey p' k = lookupKey p0 k := by
  unfold _upgrade_preprocessing_split at h
  simp only [asObj, popKey, Option.pure_def, Option.bind_eq_bind, Option.some_bind,
    Option.some.injEq] at h
  intro k k1 k2 k3 k4
  rw [← Value.obj.inj h]
  rw [lookup_if_split_frame]
  · rw [lookupKey_eraseAll_ne _ _ _ k3, lookupKey_eraseAll_ne _ _ _ k2,
      lookupKey_eraseAll_ne _ _ _ k1]
  · exact k4

/-- In-section frame of the preprocessing stage (split followed by defaults):
keys other than the three legacy keys, `split`, and the feature-type names
keep their values in a surviving preprocessing section. -/
theorem driverPreprocessingStage_section_frame (R : List String) (c c1 p : Fields)
    (h : driverPreprocessingStage R c = some c1)
    (hp : lookupKey c "preprocessing" = some (.obj p)) :
    ∀ pv', lookupKey c1 "preprocessing" = some pv' →
      ∃ p', pv' = .obj p' ∧ ∀ k, k ≠ "force_split" → k ≠ "split_probabilities" →
        k ≠ "stratify" → k ≠ "split" → R.contains k = false →
        lookupKey p' k = lookupKey p k := by
  unfold driverPreprocessingStage at h
  rw [hp] at h
  simp only [Option.pure_def, Option.bind_eq_bind] at h
  cases hsp : _upgrade_preprocessing_split (.obj p) with
  | none => rw [hsp] at h; simp at h
  | some pv1 =>
    rw [hsp] at h
    simp only [Option.some_bind] at h
    rcases upgrade_preprocessing_split_out _ _ hsp with ⟨p1, rfl, _, _, _⟩
    obtain ⟨_, _, _, d4⟩ := upgrade_preprocessing_defaults_out R _ _ h
    intro pv' hpv'
    rcases d4 p1 (lookupKey_setKey_self _ _ _) pv' hpv' with ⟨p', rfl, hpres⟩
    refine ⟨p', rfl, fun k k1 k2 k3 k4 k5 => ?_⟩
    rw [hpres k k5]
    exact upgrade_split_section_frame p p1 hsp k k1 k2 k3 k4

/-! ## Unrecognized keys never change behaviour -/

/-- Writing the same value under the same key preserves agreement. -/
theorem agree_setKey (m m2 : Fields) (k : String) (v : Value)
    (h : AgreeOnRecognized m m2) :
    AgreeOnRecognized (setKey m k v) (setKey m2 k v) := by
  intro r hr
  by_cases hrk : r = k
  · subst hrk
    rw [lookupKey_setKey_self, lookupKey_setKey_self]
  · rw [lookupKey_setKey_ne _ _ _ _ hrk, lookupKey_setKey_ne _ _ _ _ hrk]
    exact h r hr

/-- Erasing the same key preserves agreement. -/
theorem agree_eraseAll (m m2 : Fields) (k : String)
    (h : AgreeOnRecognized m m2) :
    AgreeOnRecognized (eraseAll m k) (eraseAll m2 k) := by
  intro r hr
  by_cases hrk : r = k
  · subst hrk
    rw [lookupKey_eraseAll_self, lookupKey_eraseAll_self]
  · rw [lookupKey_eraseAll_ne _ _ _ hrk, lookupKey_eraseAll_ne _ _ _ hrk]
    exact h r hr

/-- Adding an unrecognized key leaves the recognized keys untouched. -/
theorem agree_setKey_unrecognized (m : Fields) (k : String) (v : Value)
    (hk : k ∉ recognizedRootKeys) : AgreeOnRecognized m (setKey m k v) := by
  intro r hr
  rw [lookupKey_setKey_ne _ _ _ _ (fun he => hk (by rw [← he]; exact hr))]

/-- The rename stage only consults and rewrites recognized keys. -/
theorem renameTrainingSection_congr (m m2 : Fields) (hA : AgreeOnRecognized m m2) :
    AgreeOnRecognized (renameTrainingSection m) (renameTrainingSection m2) := by
  unfold renameTrainingSection
  have ht := hA "training" (by simp [recognizedRootKeys])
  cases hl : lookupKey m "training" with
  | none =>
    rw [hl] at ht
    rw [← ht]
    exact hA
  | some tv =>
    rw [hl] at ht
    rw [← ht]
    exact agree_eraseAll _ _ _ (agree_setKey _ _ _ _ hA)

/-- The feature-list stage only consults and rewrites its recognized key. -/
theorem upgradeFeatureList_congr (key : String) (hkey : key ∈ recognizedRootKeys) :
    StageCongr (fun m => upgradeFeatureList m key) := by
  intro m m2 hA
  simp only [upgradeFeatureList]
  have hk := hA key hkey
  cases hl : lookupKey m key with
  | none =>
    rw [hl] at hk
    rw [← hk]
    exact Or.inr ⟨m, m2, rfl, rfl, hA⟩
  | some v =>
    rw [hl] at hk
    rw [← hk]
    cases v with
    | list xs =>
      simp only [asList, Option.pure_def, Option.bind_eq_bind, Option.some_bind]
      cases hm : xs.mapM _upgrade_feature with
      | none => exact Or.inl ⟨rfl, rfl⟩
      | some ys => exact Or.inr ⟨_, _, rfl, rfl, agree_setKey _ _ _ _ hA⟩
    | null => exact Or.inl ⟨rfl, rfl⟩
    | bool _ => exact Or.inl ⟨rfl, rfl⟩
    | int _ => exact Or.inl ⟨rfl, rfl⟩
    | float _ => exact Or.inl ⟨rfl, rfl⟩
    | str _ => exact Or.inl ⟨rfl, rfl⟩
    | obj _ => exact Or.inl ⟨rfl, rfl⟩

/-- The hyperopt stage only consults and rewrites its recognized key. -/
theorem driverHyperoptStage_congr : StageCongr driverHyperoptStage := by
  intro m m2 hA
  unfold driverHyperoptStage
  have hk := hA "hyperopt" (by simp [recognizedRootKeys])
  cases hl : lookupKey m "hyperopt" with
  | none =>
    rw [hl] at hk
    rw [← hk]
    exact Or.inr ⟨m, m2, rfl, rfl, hA⟩
  | some hv =>
    rw [hl] at hk
    rw [← hk]
    simp only [Option.pure_def, Option.bind_eq_bind]
    cases hm : _upgrade_hyperopt hv with
    | none => exact Or.inl ⟨rfl, rfl⟩
    | some hv' => exact Or.inr ⟨_, _, rfl, rfl, agree_setKey _ _ _ _ hA⟩

/-- The trainer stage only consults and rewrites its recognized key. -/
theorem driverTrainerStage_congr : StageCongr driverTrainerStage := by
  intro m m2 hA
  unfold driverTrainerStage
  have hk := hA "trainer" (by simp [recognizedRootKeys])
  cases hl : lookupKey m "trainer" with
  | none =>
    rw [hl] at hk
    rw [← hk]
    exact Or.inr ⟨m, m2, rfl, rfl, hA⟩
  | some tv =>
    rw [hl] at hk
    rw [← hk]
    simp only [Option.pure_def, Option.bind_eq_bind]
    cases hm : _upgrade_trainer tv with
    | none => exact Or.inl ⟨rfl, rfl⟩
    | some tv' => exact Or.inr ⟨_, _, rfl, rfl, agree_setKey _ _ _ _ hA⟩

/-- One defaults-installation step only consults and rewrites `defaults`. -/
theorem applyDefaultForType_congr (c c2 : Fields) (x : String × Value)
    (hd : lookupKey c "defaults" = lookupKey c2 "defaults") :
    (applyDefaultForType c x = none ∧ applyDefaultForType c2 x = none) ∨
    ∃ d2, applyDefaultForType c x = some (setKey c "defaults" d2) ∧
          applyDefaultForType c2 x = some (setKey c2 "defaults" d2) := by
  unfold applyDefaultForType
  cases hdv : lookupKey c "defaults" with
  | none =>
    rw [hdv] at hd
    rw [← hd]
    exact Or.inl ⟨rfl, rfl⟩
  | some dv =>
    rw [hdv] at hd
    rw [← hd]
    simp only [Option.pure_def, Option.bind_eq_bind, Option.some_bind]
    cases hdi : defaultsAfterInstall dv x with
    | none => exact Or.inl ⟨rfl, rfl⟩
    | some d2 => exact Or.inr ⟨d2, rfl, rfl⟩

/-- The installation fold only consults and rewrites `defaults`. -/
theorem foldlM_applyDefault_congr (l : List (String × Value)) (c c2 : Fields)
    (hA : AgreeOnRecognized c c2) :
    (l.foldlM applyDefaultForType c = none ∧ l.foldlM applyDefaultForType c2 = none) ∨
    ∃ r r2, l.foldlM applyDefaultForType c = some r ∧
      l.foldlM applyDefaultForType c2 = some r2 ∧ AgreeOnRecognized r r2 := by
  induction l generalizing c c2 with
  | nil => exact Or.inr ⟨c, c2, rfl, rfl, hA⟩
  | cons x xs ih =>
    rw [List.foldlM_cons, List.foldlM_cons]
    have hd := hA "defaults" (by simp [recognizedRootKeys])
    rcases applyDefaultForType_congr c c2 x hd with ⟨hn1, hn2⟩ | ⟨d2, hs1, hs2⟩
    · rw [hn1, hn2]
      exact Or.inl ⟨rfl, rfl⟩
    · rw [hs1, hs2]
      simp only [Option.pure_def, Option.bind_eq_bind, Option.some_bind]
      exact ih _ _ (agree_setKey _ _ _ _ hA)

/-- The defaults migrator only consults and rewrites recognized keys. -/
theorem upgrade_preprocessing_defaults_congr (R : List String) :
    StageCongr (_upgrade_preprocessing_defaults R) := by
  intro c c2 hA
  unfold _upgrade_preprocessing_defaults
  have hpre := hA "preprocessing" (by simp [recognizedRootKeys])
  cases hl : lookupKey c "preprocessing" with
  | none =>
    rw [hl] at hpre
    rw [← hpre]
    exact Or.inl ⟨rfl, rfl⟩
  | some pv =>
    rw [hl] at hpre
    rw [← hpre]
    cases pv with
    | obj p =>
      simp only [asObj, Option.pure_def, Option.bind_eq_bind, Option.some_bind]
      have hA1 : AgreeOnRecognized
          (if (((keysOf p).foldl (collectTypeSpecific R) ([], p)).2).isEmpty = true
            then eraseAll c "preprocessing"
            else setKey c "preprocessing"
              (.obj ((keysOf p).foldl (collectTypeSpecific R) ([], p)).2))
          (if (((keysOf p).foldl (collectTypeSpecific R) ([], p)).2).isEmpty = true
            then eraseAll c2 "preprocessing"
            else setKey c2 "preprocessing"
              (.obj ((keysOf p).foldl (collectTypeSpecific R) ([], p)).2)) := by
        by_cases he : (((keysOf p).foldl (collectTypeSpecific R) ([], p)).2).isEmpty = true
        · rw [if_pos he, if_pos he]
          exact agree_eraseAll _ _ _ hA
        · rw [if_neg he, if_neg he]
          exact agree_setKey _ _ _ _ hA
      have hcd : containsKey (if (((keysOf p).foldl (collectTypeSpecific R)
            ([], p)).2).isEmpty = true
            then eraseAll c "preprocessing"
            else setKey c "preprocessing"
              (.obj ((keysOf p).foldl (collectTypeSpecific R) ([], p)).2)) "defaults"
          = containsKey (if (((keysOf p).foldl (collectTypeSpecific R)
            ([], p)).2).isEmpty = true
            then eraseAll c2 "preprocessing"
            else setKey c2 "preprocessing"
              (.obj ((keysOf p).foldl (collectTypeSpecific R) ([], p)).2)) "defaults" := by
        unfold containsKey
        rw [hA1 "defaults" (by simp [recognizedRootKeys])]
      have hA2 : AgreeOnRecognized
          (if containsKey (if (((keysOf p).foldl (collectTypeSpecific R)
              ([], p)).2).isEmpty = true
              then eraseAll c "preprocessing"
              else setKey c "preprocessing"
                (.obj ((keysOf p).foldl (collectTypeSpecific R) ([], p)).2)) "defaults" = true
            then (if (((keysOf p).foldl (collectTypeSpecific R) ([], p)).2).isEmpty = true
              then eraseAll c "preprocessing"
              else setKey c "preprocessing"
                (.obj ((keysOf p).foldl (collectTypeSpecific R) ([], p)).2))
            else setKey (if (((keysOf p).foldl (collectTypeSpecific R)
              ([], p)).2).isEmpty = true
              then eraseAll c "preprocessing"
              else setKey c "preprocessing"
                (.obj ((keysOf p).foldl (collectTypeSpecific R) ([], p)).2))
              "defaults" (.obj []))
          (if containsKey (if (((keysOf p).foldl (collectTypeSpecific R)
              ([], p)).2).isEmpty = true
              then eraseAll c2 "preprocessing"
              else setKey c2 "preprocessing"
                (.obj ((keysOf p).foldl (collectTypeSpecific R) ([], p)).2)) "defaults" = true
            then (if (((keysOf p).foldl (collectTypeSpecific R) ([], p)).2).isEmpty = true
              then eraseAll c2 "preprocessing"
              else setKey c2 "preprocessing"
                (.obj ((keysOf p).foldl (collectTypeSpecific R) ([], p)).2))
            else setKey (if (((keysOf p).foldl (collectTypeSpecific R)
              ([], p)).2).isEmpty = true
              then eraseAll c2 "preprocessing"
              else setKey c2 "preprocessing"
                (.obj ((keysOf p).foldl (collectTypeSpecific R) ([], p)).2))
              "defaults" (.obj [])) := by
        by_cases hc : containsKey (if (((keysOf p).foldl (collectTypeSpecific R)
            ([], p)).2).isEmpty = true
            then eraseAll c "preprocessing"
            else setKey c "preprocessing"
              (.obj ((keysOf p).foldl (collectTypeSpecific R) ([], p)).2)) "defaults" = true
        · have hc2 : containsKey (if (((keysOf p).foldl (collectTypeSpecific R)
              ([], p)).2).isEmpty = true
              then eraseAll c2 "preprocessing"
              else setKey c2 "preprocessing"
                (.obj ((keysOf p).foldl (collectTypeSpecific R) ([], p)).2)) "defaults"
              = true := by
            rw [← hcd]; exact hc
          rw [if_pos hc, if_pos hc2]
          exact hA1
        · have hc2 : ¬containsKey (if (((keysOf p).foldl (collectTypeSpecific R)
              ([], p)).2).isEmpty = true
              then eraseAll c2 "preprocessing"
              else setKey c2 "preprocessing"
                (.obj ((keysOf p).foldl (collectTypeSpecific R) ([], p)).2)) "defaults"
              = true := by
            rw [← hcd]; exact hc
          rw [if_neg hc, if_neg hc2]
          exact agree_setKey _ _ _ _ hA1
      exact foldlM_applyDefault_congr _ _ _ hA2
    | null => exact Or.inl ⟨rfl, rfl⟩
    | bool _ => exact Or.inl ⟨rfl, rfl⟩
    | int _ => exact Or.inl ⟨rfl, rfl⟩
    | float _ => exact Or.inl ⟨rfl, rfl⟩
    | str _ => exact Or.inl ⟨rfl, rfl⟩
    | list _ => exact Or.inl ⟨rfl, rfl⟩

/-- The preprocessing stage only consults and rewrites recognized keys. -/
theorem driverPreprocessingStage_congr (R : List String) :
    StageCongr (driverPreprocessingStage R) := by
  intro m m2 hA
  unfold driverPreprocessingStage
  have hk := hA "preprocessing" (by simp [recognizedRootKeys])
  cases hl : lookupKey m "preprocessing" with
  | none =>
    rw [hl] at hk
    rw [← hk]
    exact Or.inr ⟨m, m2, rfl, rfl, hA⟩
  | some pv =>
    rw [hl] at hk
    rw [← hk]
    simp only [Option.pure_def, Option.bind_eq_bind]
    cases hsp : _upgrade_preprocessing_split pv with
    | none => exact Or.inl ⟨rfl, rfl⟩
    | some pv1 =>
      simp only [Option.some_bind]
      exact upgrade_preprocessing_defaults_congr R _ _ (agree_setKey _ _ _ _ hA)

/-- The whole pass only consults and rewrites recognized root keys: on
documents agreeing there, it fails together or succeeds together with
agreeing results. -/
theorem upgrade_deprecated_fields_congr (R : List String) (m m2 : Fields)
    (hA : AgreeOnRecognized m m2) :
    (upgrade_deprecated_fields R (.obj m) = none ∧
     upgrade_deprecated_fields R (.obj m2) = none) ∨
    ∃ r r2, upgrade_deprecated_fields R (.obj m) = some (.obj r) ∧
      upgrade_deprecated_fields R (.obj m2) = some (.obj r2) ∧
      AgreeOnRecognized r r2 := by
  unfold upgrade_deprecated_fields
  simp only [asObj, Option.pure_def, Option.bind_eq_bind, Option.some_bind]
  have hA0 := renameTrainingSection_congr m m2 hA
  rcases upgradeFeatureList_congr "input_features" (by simp [recognizedRootKeys])
      _ _ hA0 with ⟨n1, n2⟩ | ⟨c1, c12, e1, e12, hA1⟩
  · simp only at n1 n2
    rw [n1, n2]
    exact Or.inl ⟨rfl, rfl⟩
  · simp only at e1 e12
    rw [e1, e12]
    simp only [Option.some_bind]
    rcases upgradeFeatureList_congr "output_features" (by simp [recognizedRootKeys])
        _ _ hA1 with ⟨n1, n2⟩ | ⟨c2, c22, e2, e22, hA2⟩
    · simp only at n1 n2
      rw [n1, n2]
      exact Or.inl ⟨rfl, rfl⟩
    · simp only at e2 e22
      rw [e2, e22]
      simp only [Option.some_bind]
      rcases driverHyperoptStage_congr _ _ hA2 with ⟨n1, n2⟩ | ⟨c3, c32, e3, e32, hA3⟩
      · rw [n1, n2]
        exact Or.inl ⟨rfl, rfl⟩
      · rw [e3, e32]
        simp only [Option.some_bind]
        rcases driverTrainerStage_congr _ _ hA3 with ⟨n1, n2⟩ | ⟨c4, c42, e4, e42, hA4⟩
        · rw [n1, n2]
          exact Or.inl ⟨rfl, rfl⟩
        · rw [e4, e42]
          simp only [Option.some_bind]
          rcases driverPreprocessingStage_congr R _ _ hA4
              with ⟨n1, n2⟩ | ⟨c5, c52, e5, e52, hA5⟩
          · rw [n1, n2]
            exact Or.inl ⟨rfl, rfl⟩
          · rw [e5, e52]
            exact Or.inr ⟨c5, c52, rfl, rfl, hA5⟩

/-! ## Value-level specifications used by the claims -/

/-- Folding the definition of `containsKey` back up. -/
theorem containsKey_fold (m : Fields) (k : String) :
    (lookupKey m k).isSome = containsKey m k := rfl

/-- Value of the copied-into field after one conditional copy of the sampler
block. -/
theorem lookup_copyField_self (e : Fields) (ov : Option Value) (k : String) :
    lookupKey (match ov with
      | some w => if containsKey e k = true then e else setKey e k w
      | none => e) k
    = (if containsKey e k = true then lookupKey e k else ov) := by
  cases ov with
  | none =>
    by_cases hc : containsKey e k = true
    · rw [if_pos hc]
    · rw [if_neg hc]
      exact lookupKey_eq_none_of_not_contains e k (Bool.eq_false_iff.mpr hc)
  | some w =>
    by_cases hc : containsKey e k = true
    · simp only [if_pos hc]
    · simp only [if_neg hc, lookupKey_setKey_self]

/-- Other fields are untouched by one conditional copy of the sampler
block. -/
theorem lookup_copyField_other (e : Fields) (ov : Option Value) (k a : String)
    (ha : a ≠ k) :
    lookupKey (match ov with
      | some w => if containsKey e k = true then e else setKey e k w
      | none => e) a = lookupKey e a := by
  cases ov with
  | none => rfl
  | some w =>
    by_cases hc : containsKey e k = true
    · simp only [if_pos hc]
    · simp only [if_neg hc]
      exact lookupKey_setKey_ne _ _ _ _ ha

/-- Full value-level specification of the sampler block: `sampler` is deleted
unconditionally, its `search_alg` is promoted only when the top level has
none, and `num_samples` / `scheduler` are copied into `executor` only when
`executor` does not already have them. -/
theorem hyperoptSamplerStep_spec (h s e : Fields)
    (hl : lookupKey h "sampler" = some (.obj s))
    (he : lookupKey h "executor" = some (.obj e)) :
    ∃ h3, hyperoptSamplerStep h = some h3 ∧
      lookupKey h3 "sampler" = none ∧
      lookupKey h3 "search_alg" = (match lookupKey s "search_alg" with
        | some sa => if containsKey h "search_alg" = true
            then lookupKey h "search_alg" else some sa
        | none => lookupKey h "search_alg") ∧
      ∃ e3, lookupKey h3 "executor" = some (.obj e3) ∧
        lookupKey e3 "num_samples" = (if containsKey e "num_samples" = true
          then lookupKey e "num_samples" else lookupKey s "num_samples") ∧
        lookupKey e3 "scheduler" = (if containsKey e "scheduler" = true
          then lookupKey e "scheduler" else lookupKey s "scheduler") := by
  unfold hyperoptSamplerStep
  rw [hl]
  simp only [asObj, Option.pure_def, Option.bind_eq_bind, Option.some_bind]
  have hh1sa : lookupKey (match lookupKey s "search_alg" with
      | some sa => if containsKey h "search_alg" = true then h
          else setKey h "search_alg" sa
      | none => h) "search_alg"
      = (match lookupKey s "search_alg" with
        | some sa => if containsKey h "search_alg" = true
            then lookupKey h "search_alg" else some sa
        | none => lookupKey h "search_alg") := by
    cases hls : lookupKey s "search_alg" with
    | none => rfl
    | some sa =>
      by_cases hc : containsKey h "search_alg" = true
      · simp only [if_pos hc]
      · simp only [if_neg hc, lookupKey_setKey_self]
  have hh1other : ∀ a, a ≠ "search_alg" →
      lookupKey (match lookupKey s "search_alg" with
        | some sa => if containsKey h "search_alg" = true then h
            else setKey h "search_alg" sa
        | none => h) a = lookupKey h a := by
    intro a ha
    cases hls : lookupKey s "search_alg" with
    | none => rfl
    | some sa =>
      by_cases hc : containsKey h "search_alg" = true
      · simp only [if_pos hc]
      · simp only [if_neg hc]
        exact lookupKey_setKey_ne _ _ _ _ ha
  rw [hh1other "executor" (by decide), he]
  simp only [asObj, Option.some_bind]
  refine ⟨_, rfl, lookupKey_eraseAll_self _ _, ?_, ?_⟩
  · rw [lookupKey_eraseAll_ne _ _ _ (by decide),
      lookupKey_setKey_ne _ _ _ _ (by decide)]
    exact hh1sa
  · refine ⟨(match lookupKey s "scheduler" with
      | some sc =>
        if containsKey (match lookupKey s "num_samples" with
            | some ns => if containsKey e "num_samples" = true then e
                else setKey e "num_samples" ns
            | none => e) "scheduler" = true then
          (match lookupKey s "num_samples" with
            | some ns => if containsKey e "num_samples" = true then e
                else setKey e "num_samples" ns
            | none => e)
        else
          setKey (match lookupKey s "num_samples" with
            | some ns => if containsKey e "num_samples" = true then e
                else setKey e "num_samples" ns
            | none => e) "scheduler" sc
      | none =>
        match lookupKey s "num_samples" with
        | some ns => if containsKey e "num_samples" = true then e
            else setKey e "num_samples" ns
        | none => e), ?_, ?_, ?_⟩
    · rw [lookupKey_eraseAll_ne _ _ _ (by decide), lookupKey_setKey_self]
    · rw [lookup_copyField_other _ _ _ _ (by decide), lookup_copyField_self]
    · rw [lookup_copyField_self]
      have h1 : containsKey (match lookupKey s "num_samples" with
          | some ns => if containsKey e "num_samples" = true then e
              else setKey e "num_samples" ns
          | none => e) "scheduler" = containsKey e "scheduler" :=
        congrArg Option.isSome
          (lookup_copyField_other e (lookupKey s "num_samples")
            "num_samples" "scheduler" (by decide))
      rw [h1, lookup_copyField_other _ _ _ _ (by decide)]

/-! ## Further value-level helpers for the claims -/

/-- `setKey` never leaves an empty mapping. -/
theorem setKey_isEmpty (m : Fields) (k : String) (v : Value) :
    (setKey m k v).isEmpty = false := by
  cases m with
  | nil => rfl
  | cons q rest =>
    obtain ⟨k', v'⟩ := q
    unfold setKey
    by_cases h : k' = k
    · rw [if_pos h]; rfl
    · rw [if_neg h]; rfl

/-- A pop with a `None` default yields the stored value when that value is
not a stored null. -/
theorem popMatch_some (m : Fields) (k : String) (v : Value)
    (h : lookupKey m k = some v) (hv : v ≠ Value.null) :
    (match lookupKey m k with
      | some Value.null => none
      | ov => ov) = some v := by
  simp only [h]
  cases v with
  | null => exact absurd rfl hv
  | bool _ => rfl
  | int _ => rfl
  | float _ => rfl
  | str _ => rfl
  | list _ => rfl
  | obj _ => rfl

/-- The stratify block of `_upgrade_preprocessing_split`, when a column was
popped. -/
theorem split_strat_match_some (sp0 : Fields) (v : Value) :
    (match (some v : Option Value) with
      | some w => setKey (setKey sp0 "type" (Value.str "stratify")) "column" w
      | none => sp0)
      = setKey (setKey sp0 "type" (Value.str "stratify")) "column" v := rfl

/-- The stratify block does nothing when no column was popped. -/
theorem split_strat_match_none (sp0 : Fields) :
    (match (none : Option Value) with
      | some w => setKey (setKey sp0 "type" (Value.str "stratify")) "column" w
      | none => sp0) = sp0 := rfl

/-- The force-split block never overrides an already-set `type`. -/
theorem split_force_match_of_type (fso : Option Value) (sp1 : Fields)
    (h : containsKey sp1 "type" = true) :
    (match fso with
      | some w => if containsKey sp1 "type" then sp1
          else setKey sp1 "type" (if pyTruthy w then Value.str "random" else Value.str "fixed")
      | none => sp1) = sp1 := by
  cases fso with
  | none => rfl
  | some w => exact if_pos h

/-- The force-split block writes its computed `type` when none was set. -/
theorem split_force_match_write (sp1 : Fields) (w : Value)
    (hty : containsKey sp1 "type" = false) :
    (match (some w : Option Value) with
      | some w' => if containsKey sp1 "type" then sp1
          else setKey sp1 "type" (if pyTruthy w' then Value.str "random" else Value.str "fixed")
      | none => sp1)
      = setKey sp1 "type" (if pyTruthy w then Value.str "random" else Value.str "fixed") :=
  if_neg (by rw [hty]; exact Bool.false_ne_true)

/-- The probabilities seed of the split object never holds a `type` key. -/
theorem split_probs_no_type (pro : Option Value) :
    containsKey (match pro with
      | some w => setKey ([] : Fields) "probabilities" w
      | none => ([] : Fields)) "type" = false := by
  cases pro with
  | none => rfl
  | some w => rfl

/-- The first two writes of the split object always leave a `type` key. -/
theorem containsKey_set_type_column (sp0 : Fields) (t v : Value) :
    containsKey (setKey (setKey sp0 "type" t) "column" v) "type" = true := by
  unfold containsKey
  rw [lookupKey_setKey_ne _ _ _ _ (by decide), lookupKey_setKey_self]
  rfl

/-- Stratify precedence in the split migrator: a popped `stratify` column
forces `split.type = "stratify"` and `split.column` to the popped value,
whatever the other legacy keys hold. -/
theorem split_stratify_spec (p : Fields) (v : Value)
    (hst : lookupKey p "stratify" = some v) (hv : v ≠ Value.null) :
    ∃ p', _upgrade_preprocessing_split (Value.obj p) = some (Value.obj p') ∧
      ∃ sp, lookupKey p' "split" = some (Value.obj sp) ∧
        lookupKey sp "type" = some (Value.str "stratify") ∧
        lookupKey sp "column" = some v := by
  unfold _upgrade_preprocessing_split
  simp only [asObj, popKey, Option.pure_def, Option.bind_eq_bind, Option.some_bind]
  have hsto : (match lookupKey (eraseAll (eraseAll p "force_split")
      "split_probabilities") "stratify" with
    | some Value.null => none
    | ov => ov) = some v := by
    apply popMatch_some
    · rw [lookupKey_eraseAll_ne _ _ _ (by decide), lookupKey_eraseAll_ne _ _ _ (by decide)]
      exact hst
    · exact hv
  simp only [hsto]
  rw [split_force_match_of_type _ _ (containsKey_set_type_column _ _ _),
    setKey_isEmpty]
  simp only [Bool.false_eq_true, if_false]
  refine ⟨_, rfl, _, lookupKey_setKey_self _ _ _, ?_, lookupKey_setKey_self _ _ _⟩
  rw [lookupKey_setKey_ne _ _ _ _ (by decide)]
  exact lookupKey_setKey_self _ _ _

/-- The force-split fallback: with no stratify column popped, a popped
`force_split` sets `split.type` to `"random"` when truthy, else `"fixed"`. -/
theorem split_force_spec (p : Fields) (fv : Value)
    (hfs : lookupKey p "force_split" = some fv) (hfv : fv ≠ Value.null)
    (hst : lookupKey p "stratify" = none ∨ lookupKey p "stratify" = some Value.null) :
    ∃ p', _upgrade_preprocessing_split (Value.obj p) = some (Value.obj p') ∧
      ∃ sp, lookupKey p' "split" = some (Value.obj sp) ∧
        lookupKey sp "type"
          = some (if pyTruthy fv then Value.str "random" else Value.str "fixed") := by
  unfold _upgrade_preprocessing_split
  simp only [asObj, popKey, Option.pure_def, Option.bind_eq_bind, Option.some_bind]
  have hsto : (match lookupKey (eraseAll (eraseAll p "force_split")
      "split_probabilities") "stratify" with
    | some Value.null => none
    | ov => ov) = none := by
    rcases hst with h | h <;>
      rw [lookupKey_eraseAll_ne _ _ _ (by decide), lookupKey_eraseAll_ne _ _ _ (by decide), h]
  have hfso : (match lookupKey p "force_split" with
    | some Value.null => none
    | ov => ov) = some fv := popMatch_some _ _ fv hfs hfv
  simp only [hsto, hfso]
  simp only [split_probs_no_type, Bool.false_eq_true, if_false, setKey_isEmpty]
  exact ⟨_, rfl, _, lookupKey_setKey_self _ _ _, lookupKey_setKey_self _ _ _⟩

/-- The executor block creates `{type: "ray"}` when `executor` is absent. -/
theorem hyperoptExecutorStep_absent (h : Fields)
    (hl : lookupKey h "executor" = none) :
    hyperoptExecutorStep h
      = some (setKey h "executor" (Value.obj [("type", Value.str "ray")])) := by
  unfold hyperoptExecutorStep
  rw [hl]
  rfl

/-- The default-injection block writes the default `search_alg` when it is
missing. -/
theorem hyperoptSearchAlgDefaultStep_absent (h : Fields)
    (hc : containsKey h "search_alg" = false) :
    hyperoptSearchAlgDefaultStep h
      = setKey h "search_alg" (Value.obj [("type", Value.str "variant_generator")]) := by
  unfold hyperoptSearchAlgDefaultStep
  exact if_neg (by rw [hc]; exact Bool.false_ne_true)

/-- The create branch of the defaults update loop: a missing feature-type
entry is created from the override block, wrapped under a `preprocessing`
sub-key exactly when it lacks one. -/
theorem defaultsAfterInstall_create (d : Fields) (t : String) (B : Fields)
    (hd : lookupKey d t = none) :
    defaultsAfterInstall (Value.obj d) (t, Value.obj B)
      = some (Value.obj (setKey d t
          (if containsKey B "preprocessing" = true then Value.obj B
           else Value.obj [("preprocessing", Value.obj B)]))) := by
  unfold defaultsAfterInstall
  simp only [asObj, Option.pure_def, Option.bind_eq_bind, Option.some_bind]
  rw [hd]

/-- The preprocessing stage leaves a `defaults` key whenever the document had
a preprocessing section. -/
theorem driverPreprocessingStage_defaults (R : List String) (c c1 : Fields)
    (hc : containsKey c "preprocessing" = true)
    (h : driverPreprocessingStage R c = some c1) :
    containsKey c1 "defaults" = true := by
  unfold driverPreprocessingStage at h
  cases hl : lookupKey c "preprocessing" with
  | none => unfold containsKey at hc; rw [hl] at hc; cases hc
  | some pv =>
    rw [hl] at h
    simp only [Option.pure_def, Option.bind_eq_bind] at h
    cases hsp : _upgrade_preprocessing_split pv with
    | none => rw [hsp] at h; simp at h
    | some pv1 =>
      rw [hsp] at h
      simp only [Option.some_bind] at h
      exact (upgrade_preprocessing_defaults_out R _ _ h).2.1

/-- The whole pass leaves a `defaults` key whenever the document had a
preprocessing section. -/
theorem upgrade_pass_defaults (R : List String) (c0 : Fields) (cv' : Value)
    (hc : containsKey c0 "preprocessing" = true)
    (h : upgrade_deprecated_fields R (Value.obj c0) = some cv') :
    ∃ c5, cv' = Value.obj c5 ∧ containsKey c5 "defaults" = true := by
  rcases upgrade_decomp R c0 cv' h with ⟨c1, c2, c3, c4, c5, h1, h2, h3, h4, h5, rfl⟩
  refine ⟨c5, rfl, ?_⟩
  apply driverPreprocessingStage_defaults R c4 c5 _ h5
  unfold containsKey at hc ⊢
  rw [(driverTrainerStage_out _ _ h4).2 _ (by decide),
    (driverHyperoptStage_out _ _ h3).2 _ (by decide),
    (upgradeFeatureList_out _ _ _ h2).2 _ (by decide),
    (upgradeFeatureList_out _ _ _ h1).2 _ (by decide),
    (renameTrainingSection_out c0).2 _ (by decide) (by decide)]
  exact hc

/-- With no feature-type override to relocate and no prior `defaults`, the
defaults migrator creates `defaults` as the empty mapping. -/
theorem upgrade_defaults_created_empty (R : List String) (c p c' : Fields)
    (hp : lookupKey c "preprocessing" = some (Value.obj p))
    (hreg : ∀ k, R.contains k = true → lookupKey p k = none)
    (hd : lookupKey c "defaults" = none)
    (hs : _upgrade_preprocessing_defaults R c = some c') :
    lookupKey c' "defaults" = some (Value.obj []) := by
  unfold _upgrade_preprocessing_defaults at hs
  rw [hp] at hs
  simp only [asObj, Option.pure_def, Option.bind_eq_bind, Option.some_bind] at hs
  have hfold : (keysOf p).foldl (collectTypeSpecific R) ([], p) = ([], p) := by
    apply collect_fold_id
    intro x hx
    by_cases hxR : R.contains x = true
    · exact absurd ((lookupKey_isSome_iff_mem_keysOf p x).mpr hx)
        (by rw [hreg x hxR]; simp)
    · exact Bool.eq_false_iff.mpr hxR
  rw [hfold] at hs
  have hcd : containsKey c "defaults" = false := by
    unfold containsKey; rw [hd]; rfl
  have hC1 : containsKey (if ((([], p) : Fields × Fields).2).isEmpty
      then eraseAll c "preprocessing"
      else setKey c "preprocessing" (Value.obj (([], p) : Fields × Fields).2))
      "defaults" = false := by
    by_cases hpe : ((([], p) : Fields × Fields).2).isEmpty = true
    · rw [if_pos hpe, containsKey_eraseAll_ne _ _ _ (by decide)]; exact hcd
    · rw [if_neg hpe, containsKey_setKey_ne _ _ _ _ (by decide)]; exact hcd
  rw [hC1] at hs
  simp only [Bool.false_eq_true, if_false, List.foldlM_nil, Option.pure_def,
    Option.some.injEq] at hs
  rw [← hs]
  exact lookupKey_setKey_self _ _ _

/-! ## The claims -/

/-- C1: the full migration pass and the hyperopt, trainer and split migrators
are idempotent on every accepted input; the defaults migrator is idempotent
only when its first run leaves a preprocessing section in the document —
running it standalone on a document whose preprocessing section it deleted
raises instead (`list(config.get(PREPROCESSING))` on `None`), so the claim's
unconditional idempotence for the §4.6 migrator fails. -/
theorem claim_C1 (R : List String) :
    (∀ cv cv', upgrade_deprecated_fields R cv = some cv' →
      upgrade_deprecated_fields R cv' = some cv') ∧
    (∀ hv hv', _upgrade_hyperopt hv = some hv' → _upgrade_hyperopt hv' = some hv') ∧
    (∀ tv tv', _upgrade_trainer tv = some tv' → _upgrade_trainer tv' = some tv') ∧
    (∀ pv pv', _upgrade_preprocessing_split pv = some pv' →
      _upgrade_preprocessing_split pv' = some pv') ∧
    (∀ c c', _upgrade_preprocessing_defaults R c = some c' →
      containsKey c' "preprocessing" = true →
      _upgrade_preprocessing_defaults R c' = some c') :=
  ⟨upgrade_deprecated_fields_idem R, upgrade_hyperopt_idem, upgrade_trainer_idem,
    upgrade_preprocessing_split_idem, upgrade_preprocessing_defaults_idem R⟩

/-- C1 witness: the pass at the empty document, reapplied to its own
output. -/
theorem claim_C1_witness :
    upgrade_deprecated_fields ["category"] (Value.obj []) = some (Value.obj []) :=
  (claim_C1 ["category"]).1 (Value.obj []) (Value.obj []) rfl

/-- C1 counterexample: the defaults migrator of §4.6 is not idempotent on its
own — the first run deletes the emptied preprocessing section, and a second
standalone run then fails where Python raises on the missing section. -/
theorem claim_C1_counterexample :
    _upgrade_preprocessing_defaults ["category"] [("preprocessing", Value.obj [])]
      = some [("defaults", Value.obj [])] ∧
    _upgrade_preprocessing_defaults ["category"] [("defaults", Value.obj [])] = none :=
  ⟨rfl, rfl⟩

/-- C2: a present `eval_batch_size` comparing equal to Python `0`
(`isPyZero`: the integer `0`, `False`, `0.0`) is replaced by the null
sentinel with the key kept in place; a present value not comparing equal to
`0` (strings included) and an absent key are left untouched.  The claim
restricts the rewrite to the integer `0`, but `False` (and `0.0`) also
trigger it — see the counterexample. -/
theorem claim_C2 (t : Fields) :
    (∀ v, lookupKey t "eval_batch_size" = some v → isPyZero v = true →
      _upgrade_trainer (Value.obj t)
        = some (Value.obj (setKey t "eval_batch_size" Value.null))) ∧
    (∀ v, lookupKey t "eval_batch_size" = some v → isPyZero v = false →
      _upgrade_trainer (Value.obj t) = some (Value.obj t)) ∧
    (lookupKey t "eval_batch_size" = none →
      _upgrade_trainer (Value.obj t) = some (Value.obj t)) ∧
    isPyZero (Value.int 0) = true ∧
    (∀ s, isPyZero (Value.str s) = false) ∧
    containsKey (setKey t "eval_batch_size" Value.null) "eval_batch_size" = true := by
  refine ⟨?_, ?_, ?_, rfl, fun s => rfl, ?_⟩
  · intro v hv hz
    unfold _upgrade_trainer
    simp only [asObj, Option.pure_def, Option.bind_eq_bind, Option.some_bind, hv]
    rw [if_pos hz]
  · intro v hv hz
    unfold _upgrade_trainer
    simp only [asObj, Option.pure_def, Option.bind_eq_bind, Option.some_bind, hv]
    rw [if_neg (by rw [hz]; exact Bool.false_ne_true)]
  · intro hv
    unfold _upgrade_trainer
    simp only [asObj, Option.pure_def, Option.bind_eq_bind, Option.some_bind, hv]
  · unfold containsKey
    rw [lookupKey_setKey_self]
    rfl

/-- C2 witness: the integer-zero rewrite at a concrete trainer section. -/
theorem claim_C2_witness :
    _upgrade_trainer (Value.obj [("eval_batch_size", Value.int 0)])
      = some (Value.obj [("eval_batch_size", Value.null)]) :=
  (claim_C2 [("eval_batch_size", Value.int 0)]).1 (Value.int 0) rfl rfl

/-- C2 counterexample: `eval_batch_size: false` is not the integer `0`, yet
it is rewritten to the null sentinel rather than left untouched (Python
`False == 0`). -/
theorem claim_C2_counterexample :
    _upgrade_trainer (Value.obj [("eval_batch_size", Value.bool false)])
      = some (Value.obj [("eval_batch_size", Value.null)]) ∧
    Value.bool false ≠ Value.int 0 ∧
    Value.obj [("eval_batch_size", Value.null)]
      ≠ Value.obj [("eval_batch_size", Value.bool false)] :=
  ⟨rfl, by simp, by simp⟩

/-- C3: on the concrete hyperopt section the sampler is folded as claimed;
in general the sampler block deletes `sampler` unconditionally, promotes its
`search_alg` only when the top level has none, and copies `num_samples` /
`scheduler` into `executor` only when `executor` lacks them; with no
`sampler` key the block does nothing. -/
theorem claim_C3 :
    (_upgrade_hyperopt (Value.obj [("executor", Value.obj []),
        ("sampler", Value.obj [("search_alg", Value.obj [("type", Value.str "X")]),
          ("num_samples", Value.int 5)])])
      = some (Value.obj [("executor", Value.obj [("num_samples", Value.int 5)]),
          ("search_alg", Value.obj [("type", Value.str "X")])])) ∧
    (∀ h s e, lookupKey h "sampler" = some (Value.obj s) →
      lookupKey h "executor" = some (Value.obj e) →
      ∃ h3, hyperoptSamplerStep h = some h3 ∧
        lookupKey h3 "sampler" = none ∧
        lookupKey h3 "search_alg" = (match lookupKey s "search_alg" with
          | some sa => if containsKey h "search_alg" = true
              then lookupKey h "search_alg" else some sa
          | none => lookupKey h "search_alg") ∧
        ∃ e3, lookupKey h3 "executor" = some (Value.obj e3) ∧
          lookupKey e3 "num_samples" = (if containsKey e "num_samples" = true
            then lookupKey e "num_samples" else lookupKey s "num_samples") ∧
          lookupKey e3 "scheduler" = (if containsKey e "scheduler" = true
            then lookupKey e "scheduler" else lookupKey s "scheduler")) ∧
    (∀ h, lookupKey h "sampler" = none → hyperoptSamplerStep h = some h) :=
  ⟨rfl, hyperoptSamplerStep_spec, hyperoptSamplerStep_fixed⟩

/-- C3 witness: the sampler block at a concrete hyperopt section. -/
theorem claim_C3_witness :
    ∃ h3, hyperoptSamplerStep [("sampler", Value.obj [("num_samples", Value.int 3)]),
        ("executor", Value.obj [])] = some h3 ∧
      lookupKey h3 "sampler" = none ∧
      lookupKey h3 "search_alg" = none ∧
      ∃ e3, lookupKey h3 "executor" = some (Value.obj e3) ∧
        lookupKey e3 "num_samples" = some (Value.int 3) ∧
        lookupKey e3 "scheduler" = none :=
  claim_C3.2.1 [("sampler", Value.obj [("num_samples", Value.int 3)]),
    ("executor", Value.obj [])] [("num_samples", Value.int 3)] [] rfl rfl

/-- C4: the defaults update loop creates a missing feature-type entry from
the override block, wrapped under a `preprocessing` sub-key exactly when it
lacks one; a preprocessing section surviving the defaults migrator is never
empty (an emptied one is deleted); and on the concrete document the whole
pass removes the `preprocessing` root key and installs
`defaults.category.preprocessing.missing_value_strategy = "fill"`. -/
theorem claim_C4 :
    (∀ (d : Fields) (t : String) (B : Fields), lookupKey d t = none →
      defaultsAfterInstall (Value.obj d) (t, Value.obj B)
        = some (Value.obj (setKey d t
            (if containsKey B "preprocessing" = true then Value.obj B
             else Value.obj [("preprocessing", Value.obj B)])))) ∧
    (∀ (R : List String) (c c' : Fields),
      _upgrade_preprocessing_defaults R c = some c' →
      ∀ pv', lookupKey c' "preprocessing" = some pv' →
        ∃ p', pv' = Value.obj p' ∧ List.isEmpty p' = false ∧
          ∀ k, R.contains k = true → lookupKey p' k = none) ∧
    upgrade_deprecated_fields ["category"]
        (Value.obj [("preprocessing", Value.obj [("category",
          Value.obj [("missing_value_strategy", Value.str "fill")])])])
      = some (Value.obj [("defaults", Value.obj [("category", Value.obj [("preprocessing",
          Value.obj [("missing_value_strategy", Value.str "fill")])])])]) :=
  ⟨fun d t B hd => defaultsAfterInstall_create d t B hd,
   fun R c c' hs => (upgrade_preprocessing_defaults_out R c c' hs).1,
   rfl⟩

/-- C4 witness: creating a missing `category` defaults entry wraps the
override block under a `preprocessing` sub-key. -/
theorem claim_C4_witness :
    defaultsAfterInstall (Value.obj [])
        ("category", Value.obj [("missing_value_strategy", Value.str "fill")])
      = some (Value.obj [("category", Value.obj [("preprocessing",
          Value.obj [("missing_value_strategy", Value.str "fill")])])]) :=
  claim_C4.1 [] "category" [("missing_value_strategy", Value.str "fill")] rfl

/-- C5: an empty hyperopt section gains `executor = {type: "ray"}` and
`search_alg = {type: "variant_generator"}`; an absent executor is created as
`{type: "ray"}`; and the default `search_alg` is injected exactly when it is
still missing after the earlier blocks. -/
theorem claim_C5 :
    (_upgrade_hyperopt (Value.obj [])
      = some (Value.obj [("executor", Value.obj [("type", Value.str "ray")]),
          ("search_alg", Value.obj [("type", Value.str "variant_generator")])])) ∧
    (∀ h, lookupKey h "executor" = none →
      hyperoptExecutorStep h
        = some (setKey h "executor" (Value.obj [("type", Value.str "ray")]))) ∧
    (∀ h, containsKey h "search_alg" = true → hyperoptSearchAlgDefaultStep h = h) ∧
    (∀ h, containsKey h "search_alg" = false →
      hyperoptSearchAlgDefaultStep h
        = setKey h "search_alg" (Value.obj [("type", Value.str "variant_generator")])) :=
  ⟨rfl, hyperoptExecutorStep_absent, hyperoptSearchAlgDefaultStep_fixed,
   hyperoptSearchAlgDefaultStep_absent⟩

/-- C5 witness: the executor block creates `{type: "ray"}` in an empty
hyperopt section. -/
theorem claim_C5_witness :
    hyperoptExecutorStep [] = some [("executor", Value.obj [("type", Value.str "ray")])] :=
  claim_C5.2.1 [] rfl

/-- C6: on the concrete section the split object is
`{type: "stratify", column: "col"}` although `force_split` is present; in
general a popped stratify column forces `split.type = "stratify"` and
`split.column` whatever the other legacy keys hold, and with no stratify
column a popped `force_split` writes `type = "random"` when truthy, else
`"fixed"`. -/
theorem claim_C6 :
    (_upgrade_preprocessing_split (Value.obj [("stratify", Value.str "col"),
        ("force_split", Value.bool false)])
      = some (Value.obj [("split", Value.obj [("type", Value.str "stratify"),
          ("column", Value.str "col")])])) ∧
    (∀ p v, lookupKey p "stratify" = some v → v ≠ Value.null →
      ∃ p', _upgrade_preprocessing_split (Value.obj p) = some (Value.obj p') ∧
        ∃ sp, lookupKey p' "split" = some (Value.obj sp) ∧
          lookupKey sp "type" = some (Value.str "stratify") ∧
          lookupKey sp "column" = some v) ∧
    (∀ p fv, lookupKey p "force_split" = some fv → fv ≠ Value.null →
      (lookupKey p "stratify" = none ∨ lookupKey p "stratify" = some Value.null) →
      ∃ p', _upgrade_preprocessing_split (Value.obj p) = some (Value.obj p') ∧
        ∃ sp, lookupKey p' "split" = some (Value.obj sp) ∧
          lookupKey sp "type"
            = some (if pyTruthy fv then Value.str "random" else Value.str "fixed")) :=
  ⟨rfl, split_stratify_spec, split_force_spec⟩

/-- C6 witness: the stratify branch at a concrete preprocessing section. -/
theorem claim_C6_witness :
    ∃ p', _upgrade_preprocessing_split (Value.obj [("stratify", Value.str "col")])
        = some (Value.obj p') ∧
      ∃ sp, lookupKey p' "split" = some (Value.obj sp) ∧
        lookupKey sp "type" = some (Value.str "stratify") ∧
        lookupKey sp "column" = some (Value.str "col") :=
  claim_C6.2.1 [("stratify", Value.str "col")] (Value.str "col") rfl (by simp)

/-- C7: the concrete section consolidates into
`split = {probabilities: [0.7, 0.1, 0.2], type: "random"}`; every successful
split migration leaves none of the three legacy keys; and with none of them
present the section is returned unchanged, so no `split` key is written. -/
theorem claim_C7 :
    (_upgrade_preprocessing_split (Value.obj [("force_split", Value.bool true),
        ("split_probabilities", Value.list [Value.float (7/10), Value.float (1/10),
          Value.float (1/5)])])
      = some (Value.obj [("split", Value.obj [("probabilities",
          Value.list [Value.float (7/10), Value.float (1/10), Value.float (1/5)]),
          ("type", Value.str "random")])])) ∧
    (∀ pv pv', _upgrade_preprocessing_split pv = some pv' →
      ∃ p', pv' = Value.obj p' ∧ lookupKey p' "force_split" = none ∧
        lookupKey p' "split_probabilities" = none ∧ lookupKey p' "stratify" = none) ∧
    (∀ p, lookupKey p "force_split" = none → lookupKey p "split_probabilities" = none →
      lookupKey p "stratify" = none →
      _upgrade_preprocessing_split (Value.obj p) = some (Value.obj p)) :=
  ⟨rfl, upgrade_preprocessing_split_out, split_noLegacy⟩

/-- C7 witness: a section with no legacy split key is returned unchanged. -/
theorem claim_C7_witness :
    _upgrade_preprocessing_split (Value.obj [("x", Value.int 1)])
      = some (Value.obj [("x", Value.int 1)]) :=
  claim_C7.2.2 [("x", Value.int 1)] rfl rfl rfl

/-- C8: in any mapping `_upgrade_use_bias` moves `bias` to `use_bias`
(likewise `conv_bias` and `default_bias`) with the value preserved and the
old key gone; every record accepted by `_upgrade_feature` carries no bias
key in any reachable mapping at any depth; and `_traverse_dicts` walks
post-order — a mapping's values and a sequence's elements are rewritten
first, then the rule is applied to the mapping itself. -/
theorem claim_C8 :
    (∀ (m : Fields) v, lookupKey m "bias" = some v →
      lookupKey (_upgrade_use_bias m) "use_bias" = some v ∧
      lookupKey (_upgrade_use_bias m) "bias" = none) ∧
    (∀ (m : Fields) v, lookupKey m "conv_bias" = some v →
      lookupKey (_upgrade_use_bias m) "conv_use_bias" = some v ∧
      lookupKey (_upgrade_use_bias m) "conv_bias" = none) ∧
    (∀ (m : Fields) v, lookupKey m "default_bias" = some v →
      lookupKey (_upgrade_use_bias m) "default_use_bias" = some v ∧
      lookupKey (_upgrade_use_bias m) "default_bias" = none) ∧
    (∀ f f', _upgrade_feature f = some f' → biasFree f' = true) ∧
    (∀ (f : Fields → Fields) (m : Fields),
      _traverse_dicts f (Value.obj m) = Value.obj (f (traverseFields f m))) ∧
    (∀ (f : Fields → Fields) (xs : List Value),
      _traverse_dicts f (Value.list xs) = Value.list (traverseValues f xs)) ∧
    (∀ (f : Fields → Fields) (k : String) (v : Value) (rest : Fields),
      traverseFields f ((k, v) :: rest)
        = (k, _traverse_dicts f v) :: traverseFields f rest) := by
  refine ⟨?_, ?_, ?_, ?_, fun f m => by rw [_traverse_dicts],
    fun f xs => by rw [_traverse_dicts], fun f k v rest => by rw [traverseFields]⟩
  · intro m v hv
    constructor
    · unfold _upgrade_use_bias
      rw [lookupKey_renameField_other _ _ _ _ (by decide) (by decide),
        lookupKey_renameField_other _ _ _ _ (by decide) (by decide)]
      exact lookupKey_renameField_new _ _ _ _ (by decide) hv
    · exact upgrade_use_bias_no_bias m
  · intro m v hv
    constructor
    · unfold _upgrade_use_bias
      rw [lookupKey_renameField_other _ _ _ _ (by decide) (by decide)]
      refine lookupKey_renameField_new _ _ _ _ (by decide) ?_
      rw [lookupKey_renameField_other _ _ _ _ (by decide) (by decide)]
      exact hv
    · exact upgrade_use_bias_no_conv_bias m
  · intro m v hv
    constructor
    · unfold _upgrade_use_bias
      refine lookupKey_renameField_new _ _ _ _ (by decide) ?_
      rw [lookupKey_renameField_other _ _ _ _ (by decide) (by decide),
        lookupKey_renameField_other _ _ _ _ (by decide) (by decide)]
      exact hv
    · exact upgrade_use_bias_no_default_bias m
  · intro f f' hf
    cases f with
    | obj m =>
      unfold _upgrade_feature at hf
      simp only [asObj, Option.pure_def, Option.bind_eq_bind, Option.some_bind,
        Option.some.injEq] at hf
      rw [← hf]
      exact biasFree_traverse _
    | null => simp [_upgrade_feature, asObj] at hf
    | bool _ => simp [_upgrade_feature, asObj] at hf
    | int _ => simp [_upgrade_feature, asObj] at hf
    | float _ => simp [_upgrade_feature, asObj] at hf
    | str _ => simp [_upgrade_feature, asObj] at hf
    | list _ => simp [_upgrade_feature, asObj] at hf

/-- C8 witness: a top-level `bias` key is renamed with its value kept. -/
theorem claim_C8_witness :
    lookupKey (_upgrade_use_bias [("bias", Value.int 7)]) "use_bias"
        = some (Value.int 7) ∧
    lookupKey (_upgrade_use_bias [("bias", Value.int 7)]) "bias" = none :=
  claim_C8.1 [("bias", Value.int 7)] (Value.int 7) rfl

/-- C9: unrecognized root keys keep their values across the whole pass;
unrecognized keys inside the hyperopt, trainer and preprocessing sections
keep theirs across the section migrators; and changing only unrecognized
root keys never turns success into failure. -/
theorem claim_C9 (R : List String) :
    (∀ m m', upgrade_deprecated_fields R (Value.obj m) = some (Value.obj m') →
      ∀ k, k ∉ recognizedRootKeys → lookupKey m' k = lookupKey m k) ∧
    (∀ h0 hf, _upgrade_hyperopt (Value.obj h0) = some (Value.obj hf) →
      ∀ k, k ≠ "parameters" → k ≠ "executor" → k ≠ "search_alg" → k ≠ "sampler" →
        lookupKey hf k = lookupKey h0 k) ∧
    (∀ t0 t', _upgrade_trainer (Value.obj t0) = some (Value.obj t') →
      ∀ k, k ≠ "eval_batch_size" → lookupKey t' k = lookupKey t0 k) ∧
    (∀ p0 p', _upgrade_preprocessing_split (Value.obj p0) = some (Value.obj p') →
      ∀ k, k ≠ "force_split" → k ≠ "split_probabilities" → k ≠ "stratify" →
        k ≠ "split" → lookupKey p' k = lookupKey p0 k) ∧
    (∀ c c1 p, driverPreprocessingStage R c = some c1 →
      lookupKey c "preprocessing" = some (Value.obj p) →
      ∀ pv', lookupKey c1 "preprocessing" = some pv' →
        ∃ p', pv' = Value.obj p' ∧ ∀ k, k ≠ "force_split" → k ≠ "split_probabilities" →
          k ≠ "stratify" → k ≠ "split" → R.contains k = false →
          lookupKey p' k = lookupKey p k) ∧
    (∀ m m2 r, AgreeOnRecognized m m2 →
      upgrade_deprecated_fields R (Value.obj m) = some r →
      ∃ r2, upgrade_deprecated_fields R (Value.obj m2) = some r2) := by
  refine ⟨upgrade_root_frame R, upgrade_hyperopt_section_frame,
    upgrade_trainer_section_frame, upgrade_split_section_frame,
    fun c c1 p h hp => driverPreprocessingStage_section_frame R c c1 p h hp, ?_⟩
  intro m m2 r hA h
  rcases upgrade_deprecated_fields_congr R m m2 hA with ⟨hn, _⟩ | ⟨r1, r2, _, h2, _⟩
  · exact absurd (h.symm.trans hn) (by simp)
  · exact ⟨Value.obj r2, h2⟩

/-- C9 witness: an unrecognized root key does not make the pass fail. -/
theorem claim_C9_witness :
    ∃ r2, upgrade_deprecated_fields ["category"] (Value.obj [("x", Value.int 1)])
      = some r2 :=
  (claim_C9 ["category"]).2.2.2.2.2 [] [("x", Value.int 1)] (Value.obj [])
    (fun r hr => by fin_cases hr <;> rfl) rfl

/-- C10 (amended): whenever the document has a preprocessing section and the
pass succeeds, the output carries a `defaults` key at the root — created as
the empty mapping when absent and nothing was relocated — and the two
concrete documents behave as claimed; but a pre-existing `defaults` value
survives unchanged whether or not it is a mapping, so "always leaves a
defaults mapping" fails (see the counterexample). -/
theorem claim_C10 (R : List String) :
    (∀ c0 cv', containsKey c0 "preprocessing" = true →
      upgrade_deprecated_fields R (Value.obj c0) = some cv' →
      ∃ c', cv' = Value.obj c' ∧ containsKey c' "defaults" = true) ∧
    (∀ c p c', lookupKey c "preprocessing" = some (Value.obj p) →
      (∀ k, R.contains k = true → lookupKey p k = none) →
      lookupKey c "defaults" = none →
      _upgrade_preprocessing_defaults R c = some c' →
      lookupKey c' "defaults" = some (Value.obj [])) ∧
    upgrade_deprecated_fields ["category"] (Value.obj [("preprocessing",
        Value.obj [("x", Value.int 1)])])
      = some (Value.obj [("preprocessing", Value.obj [("x", Value.int 1)]),
          ("defaults", Value.obj [])]) ∧
    upgrade_deprecated_fields ["category"] (Value.obj [("preprocessing", Value.obj [])])
      = some (Value.obj [("defaults", Value.obj [])]) :=
  ⟨upgrade_pass_defaults R,
   fun c p c' hp hreg hd hs => upgrade_defaults_created_empty R c p c' hp hreg hd hs,
   rfl, rfl⟩

/-- C10 witness: a document with a preprocessing section keeps a `defaults`
key in the migrated output. -/
theorem claim_C10_witness :
    ∃ c', (Value.obj [("preprocessing", Value.obj [("x", Value.int 1)]),
        ("defaults", Value.obj [])] : Value) = Value.obj c' ∧
      containsKey c' "defaults" = true :=
  (claim_C10 ["category"]).1 [("preprocessing", Value.obj [("x", Value.int 1)])]
    (Value.obj [("preprocessing", Value.obj [("x", Value.int 1)]),
      ("defaults", Value.obj [])]) rfl rfl

/-- C10 counterexample: with a pre-existing non-mapping `defaults` value the
pass leaves it as-is — the migrated root holds no defaults mapping. -/
theorem claim_C10_counterexample :
    upgrade_deprecated_fields ["category"] (Value.obj [("preprocessing",
        Value.obj [("x", Value.int 1)]), ("defaults", Value.int 5)])
      = some (Value.obj [("preprocessing", Value.obj [("x", Value.int 1)]),
          ("defaults", Value.int 5)]) ∧
    ∀ d, Value.int 5 ≠ Value.obj d :=
  ⟨rfl, fun _ h => Value.noConfusion h⟩

end LudwigCompat
